import Mathlib

/-!
# media-sync-api — verification of the storage core

Shallow embedding of the storage subsystem of `media-sync-api`
(`app/storage/{reindex,index,dedupe,metadata,orientation,buckets}.py`) and
proofs about it.

Modelling conventions:
* file bytes are abstracted as `Content := Nat`; `compute_sha256_from_path`
  becomes an arbitrary function `hash : Content → String` supplied by the
  environment (sha256 is a pure function of the bytes);
* external tools (`ffprobe`, `ffmpeg`) are oracles supplied by the
  environment: a probe may fail (`none`, modelling `OrientationError`) and is
  indexed by invocation number, since a real invocation can fail for
  filesystem reasons even on bytes that probed fine before;
* relative paths are lists of components (`ingest/originals/a.mov` is
  `["ingest", "originals", "a.mov"]`), matching `Path.parts` / POSIX strings
  one-to-one;
* timestamps (`datetime.now`) are an opaque `now : String` of the
  environment;
* the persisted stores (`index.json`, `manifest.db`, metadata sidecars) are
  modelled as in-memory values; a sqlite table with `sha256 TEXT PRIMARY KEY`
  becomes an association list whose keys stay duplicate-free.
-/

/-- Raw bytes of a file, abstractly. -/
abbrev Content := Nat

namespace Orientation

/-- Outcomes of the external tools used by
`normalize_video_orientation_in_place`. `probe i c` is the result of the
`i`-th `ffprobe_video` invocation of one normalization run applied to bytes
`c` (`none` models an `OrientationError`); `transcode c` is the bytes ffmpeg
writes for input `c` (`none` models a nonzero return code, after which the
code unlinks the temp file); `renameFault` injects a filesystem failure into
the rename of the temp file onto the original path (the first statement of
the guarded region after the swap begins). -/
structure OrientEnv where
  probe : Nat → Content → Option Int
  transcode : Content → Option Content
  sizeOf : Content → Nat
  renameFault : Bool

/-- The three sibling paths `normalize_video_orientation_in_place` touches:
bytes at the original path, at the `.tmp.…` path and at the `.bak.…` path
(`none` = file absent). -/
structure OrientFS where
  orig : Option Content
  temp : Option Content
  backup : Option Content
deriving DecidableEq, Repr

/-- The failure cases of `normalize_video_orientation_in_place`
(all raised as `OrientationError` in the source). -/
inductive OrientErr where
  | inputMissing
  | probeFailed
  | refusedOverwrite
  | ffmpegFailed
  | outputTooSmall
  | stillRotated
  | replaceFailed
deriving DecidableEq, Repr

/-- Mirror of the `NormalizationResult` dataclass (`backupKept` abstracts
`backup_path`, which is populated exactly when `keep_backup` is set). -/
structure NormalizationResult where
  changed : Bool
  rotation : Option Int
  backupKept : Bool
deriving DecidableEq, Repr

def SUPPORTED_ROTATIONS : List Int := [90, 180, 270]

def min_output_bytes : Nat := 1024

/-- Shallow embedding of `normalize_video_orientation_in_place`
(`app/storage/orientation.py`).  Returns the function result (or the raised
`OrientationError`), the final state of the three paths, and the trace of
contents handed to `ffprobe_video`, in invocation order.

Step by step against the source: missing input and probe failure abort with
the state untouched; rotation `% 360` outside `{90,180,270}` returns
`changed := false`; a pre-existing temp/backup file refuses to proceed;
a transcoder failure, an implausibly small output and a still-rotated output
unlink the temp file and abort, the original untouched.  Then the swap:
`input → backup` rename, and inside `try`: `temp → input` rename followed by
a re-probe of the renamed file.  A failure of either (injected via
`renameFault`, or `probe 2` returning `none`) triggers the rollback block:
delete whatever is at the original path, rename the backup back to the
original path, unlink the temp file, and re-raise.  On success the temp file
is gone (renamed), and the backup is unlinked unless `keep_backup`. -/
def normalize_video_orientation_in_place (env : OrientEnv) (keep_backup : Bool)
    (fs : OrientFS) :
    Except OrientErr NormalizationResult × OrientFS × List Content :=
  match fs.orig with
  | none => (.error .inputMissing, fs, [])
  | some c0 =>
    match env.probe 0 c0 with
    | none => (.error .probeFailed, fs, [c0])
    | some r0 =>
      let rotation : Int := r0 % 360
      if rotation ∉ SUPPORTED_ROTATIONS then
        (.ok ⟨false, some rotation, false⟩, fs, [c0])
      else if fs.temp.isSome || fs.backup.isSome then
        (.error .refusedOverwrite, fs, [c0])
      else
        match env.transcode c0 with
        | none => (.error .ffmpegFailed, { fs with temp := none }, [c0])
        | some c1 =>
          if env.sizeOf c1 < min_output_bytes then
            (.error .outputTooSmall, { fs with temp := none }, [c0])
          else
            match env.probe 1 c1 with
            | none => (.error .probeFailed, { fs with temp := none }, [c0, c1])
            | some r1 =>
              if r1 ≠ 0 then
                (.error .stillRotated, { fs with temp := none }, [c0, c1])
              else
                -- input_path.rename(backup_path) has happened; the guarded swap:
                if env.renameFault then
                  (.error .replaceFailed, ⟨some c0, none, none⟩, [c0, c1])
                else
                  match env.probe 2 c1 with
                  | none =>
                    (.error .replaceFailed, ⟨some c0, none, none⟩, [c0, c1, c1])
                  | some _ =>
                    (.ok ⟨true, some rotation, keep_backup⟩,
                      ⟨some c1, none, if keep_backup then some c0 else none⟩,
                      [c0, c1, c1])

/-- C2 (amended): whenever `normalize_video_orientation_in_place` fails after
the swap has begun — the rename of the temp file onto the original path, or
the subsequent probe of the renamed file — the rollback leaves the file at
the original path with exactly its pre-normalization bytes (hence the same
hash, the hash being a function of the bytes), and the temp and backup files
are deleted.  The engine performs no probe of the restored file itself; the
restored bytes being bit-identical, a re-probe would necessarily report the
original probe result. -/
theorem normalize_rollback_restores_original (env : OrientEnv) (keep_backup : Bool)
    (fs : OrientFS)
    (hres : (normalize_video_orientation_in_place env keep_backup fs).1 =
      .error .replaceFailed) :
    (normalize_video_orientation_in_place env keep_backup fs).2.1 =
      ⟨fs.orig, none, none⟩ := by
  obtain ⟨o, t, b⟩ := fs
  cases o with
  | none => simp [normalize_video_orientation_in_place] at hres
  | some c0 =>
    cases hp : env.probe 0 c0 with
    | none => simp [normalize_video_orientation_in_place, hp] at hres
    | some r0 =>
      simp only [normalize_video_orientation_in_place, hp] at hres ⊢
      by_cases hrot : (r0 % 360 : Int) ∉ SUPPORTED_ROTATIONS
      · simp [hrot] at hres
      · simp only [hrot, if_true, if_false, if_neg, not_false_iff] at hres ⊢
        by_cases hex : (Option.isSome t || Option.isSome b) = true
        · simp [hex] at hres
        · simp only [hex, if_false, Bool.false_eq_true] at hres ⊢
          cases ht : env.transcode c0 with
          | none => simp [ht] at hres
          | some c1 =>
            simp only [ht] at hres ⊢
            by_cases hsz : env.sizeOf c1 < min_output_bytes
            · simp [hsz] at hres
            · simp only [hsz, if_false] at hres ⊢
              cases hp1 : env.probe 1 c1 with
              | none => simp [hp1] at hres
              | some r1 =>
                simp only [hp1] at hres ⊢
                by_cases hr1 : r1 ≠ 0
                · simp [hr1] at hres
                · simp only [hr1, if_false] at hres ⊢
                  by_cases hrf : env.renameFault = true
                  · simp [hrf]
                  · simp only [hrf, if_false, Bool.false_eq_true] at hres ⊢
                    cases hp2 : env.probe 2 c1 with
                    | none => simp [hp2]
                    | some r2 => simp [hp2] at hres

/-- A concrete normalization run for a rotated file (original bytes `5`,
transcoded bytes `7`) in which the post-swap probe of the renamed file
fails. -/
def faultyProbeEnv : OrientEnv where
  probe := fun i _ => if i = 0 then some 90 else if i = 1 then some 0 else none
  transcode := fun _ => some 7
  sizeOf := fun _ => 2048
  renameFault := false

def rotatedFS : OrientFS := ⟨some 5, none, none⟩

/-- Witness for C2's amended theorem at the concrete run `faultyProbeEnv`. -/
theorem normalize_rollback_restores_original_witness :
    (normalize_video_orientation_in_place faultyProbeEnv false rotatedFS).1 =
      .error .replaceFailed ∧
    (normalize_video_orientation_in_place faultyProbeEnv false rotatedFS).2.1 =
      ⟨rotatedFS.orig, none, none⟩ :=
  ⟨rfl, normalize_rollback_restores_original faultyProbeEnv false rotatedFS rfl⟩

/-- C2, counterexample to the claim as stated: in the concrete run
`faultyProbeEnv` the swap fails at the probe of the renamed file and the
rollback restores the original bytes `5`, but the probe trace of the whole
run is `[5, 7, 7]` — the original bytes are probed exactly once, at the very
start, so the restored file is never re-probed after the rollback, contrary
to the claim's "the restored file is re-probed to confirm the rollback
succeeded". -/
theorem normalize_no_reprobe_after_rollback :
    (normalize_video_orientation_in_place faultyProbeEnv false rotatedFS).1 =
      .error .replaceFailed ∧
    (normalize_video_orientation_in_place faultyProbeEnv false rotatedFS).2.1.orig =
      some 5 ∧
    (normalize_video_orientation_in_place faultyProbeEnv false rotatedFS).2.2 =
      [5, 7, 7] ∧
    ((normalize_video_orientation_in_place faultyProbeEnv false rotatedFS).2.2).count 5
      = 1 :=
  ⟨rfl, rfl, rfl, rfl⟩

end Orientation

namespace Storage

/-- A relative path as its components (`Path.parts`); the POSIX string
`"ingest/originals/a.mov"` is `["ingest", "originals", "a.mov"]`. -/
abbrev PathParts := List String

/-- `pathlib`'s `Path(...).name`: the final component. -/
def pathName (p : PathParts) : String := p.getLastD ""

/-- ASCII lower-casing (`str.lower()`; every extension and directory name
compared by this code is ASCII). -/
def strLower (s : String) : String := ⟨s.data.map Char.toLower⟩

/-- Split a character list at every `'.'` (the pieces of
`name.split(".")`). -/
def splitDots (l : List Char) : List (List Char) :=
  l.foldr
    (fun x acc =>
      if x = '.' then [] :: acc
      else
        match acc with
        | [] => [[x]]
        | h :: t => (x :: h) :: t)
    [[]]

/-- `pathlib`'s `Path(...).suffix` applied to a file name: the final
`.ext`, empty when there is no dot, when the only dot is leading (hidden
file), or when the dot is trailing. -/
def nameSuffix (name : String) : String :=
  match splitDots name.data with
  | [] => ""
  | [_] => ""
  | ps =>
    let last := ps.getLastD []
    if last = [] then ""
    else if ps.length = 2 ∧ ps.headD [] = [] then ""
    else ⟨'.' :: last⟩

/-- `pathlib`'s `Path(...).stem`: the name without its suffix. -/
def nameStem (name : String) : String :=
  ⟨name.data.take (name.data.length - (nameSuffix name).data.length)⟩

/-- `Path(...).suffix` of a path. -/
def pathSuffix (p : PathParts) : String := nameSuffix (pathName p)

/-- First-match association-list lookup, the embedding of reading one row by
primary key (or one `dict` entry). -/
def assocFind {κ α : Type} [DecidableEq κ] (l : List (κ × α)) (k : κ) : Option α :=
  match l with
  | [] => none
  | kv :: rest => if kv.1 = k then some kv.2 else assocFind rest k

/-- Write-by-key: replace the first binding of `k` in place, or append a new
one — Python `dict` assignment keeps the original key position. -/
def assocSet {κ α : Type} [DecidableEq κ] (l : List (κ × α)) (k : κ) (v : α) :
    List (κ × α) :=
  match l with
  | [] => [(k, v)]
  | kv :: rest => if kv.1 = k then (k, v) :: rest else kv :: assocSet rest k v

/-- Delete-by-key (unlinking the one file / row stored under `k`). -/
def assocErase {κ α : Type} [DecidableEq κ] (l : List (κ × α)) (k : κ) :
    List (κ × α) :=
  l.filter (fun kv => kv.1 ≠ k)

theorem assocFind_assocSet {κ α : Type} [DecidableEq κ] (l : List (κ × α))
    (k : κ) (v : α) : assocFind (assocSet l k v) k = some v := by
  induction l with
  | nil => simp [assocSet, assocFind]
  | cons kv rest ih =>
    by_cases h : kv.1 = k
    · simp [assocSet, assocFind, h]
    · simpa [assocSet, assocFind, h] using ih

/-! ## Metadata sidecars (`app/storage/metadata.py`)

One sidecar per content hash, stored at `ingest/_metadata/<sha256>.json`;
the store is modelled as an association list keyed by hash.  Timestamps are
an opaque `now` string.  The nested `ingest` dict is modelled at whole-dict
granularity: `setdefault` on its keys becomes "fill the whole record when
absent, keep it when present" (its sub-keys are always written together by
this code). -/

def IMAGE_EXTENSIONS : List String := [".jpg", ".jpeg", ".png", ".heic"]
def VIDEO_EXTENSIONS : List String := [".mp4", ".mov", ".avi", ".mkv"]
def AUDIO_EXTENSIONS : List String := [".mp3", ".wav", ".flac", ".aac"]

def METADATA_SCHEMA_VERSION : Nat := 1

/-- The `tags` object of a sidecar. -/
structure Tags where
  manual : List String
  derived : List String
deriving DecidableEq, Repr

/-- The `ingest` provenance object of a sidecar. -/
structure IngestInfo where
  source : String
  method : String
  run_id : Option String
deriving DecidableEq, Repr

/-- A metadata sidecar payload.  `Option` fields model JSON keys that may be
absent from a payload read back from disk. -/
structure Sidecar where
  schema_version : Option Nat
  sha256 : String
  relative : PathParts
  kind : String
  size_bytes : Nat
  recorded_at : String
  ingest : Option IngestInfo
  tags : Option Tags
  updated_at : Option String
deriving DecidableEq, Repr

abbrev SidecarStore := List (String × Sidecar)

/-- `_detect_kind`. -/
def detect_kind (file_path : PathParts) : String :=
  let suffix := strLower (pathSuffix file_path)
  if suffix ∈ IMAGE_EXTENSIONS then "image"
  else if suffix ∈ VIDEO_EXTENSIONS then "video"
  else if suffix ∈ AUDIO_EXTENSIONS then "audio"
  else "other"

/-- `_build_metadata_payload`. -/
def build_metadata_payload (relative_path : PathParts) (sha256 : String)
    (file_path : PathParts) (sizeOf : Content → Nat) (c : Content)
    (source method : String) (run_id : Option String) (now : String) : Sidecar :=
  { schema_version := some METADATA_SCHEMA_VERSION
    sha256 := sha256
    relative := relative_path
    kind := detect_kind file_path
    size_bytes := sizeOf c
    recorded_at := now
    ingest := some ⟨source, method, run_id⟩
    tags := some ⟨[], []⟩
    updated_at := none }

/-- `ensure_metadata`: create the sidecar when absent; otherwise refresh the
identity fields (`relative`, `sha256`, `kind`, `size_bytes`), `setdefault`
the provenance/schema/tags keys, and persist (with a fresh `updated_at`)
only when one of the four identity fields actually changed — exactly the
source's `updated` flag. -/
def ensure_metadata (store : SidecarStore) (relative_path : PathParts)
    (sha256 : String) (file_path : PathParts) (sizeOf : Content → Nat)
    (c : Content) (source method : String) (run_id : Option String)
    (now : String) : SidecarStore :=
  match assocFind store sha256 with
  | none =>
    assocSet store sha256
      (build_metadata_payload relative_path sha256 file_path sizeOf c source
        method run_id now)
  | some payload =>
    let k := detect_kind file_path
    let sz := sizeOf c
    let updated :=
      payload.relative ≠ relative_path ∨ payload.sha256 ≠ sha256 ∨
        payload.kind ≠ k ∨ payload.size_bytes ≠ sz
    if updated then
      assocSet store sha256
        { payload with
            relative := relative_path
            sha256 := sha256
            kind := k
            size_bytes := sz
            ingest := some (payload.ingest.getD ⟨source, method, run_id⟩)
            schema_version := some (payload.schema_version.getD METADATA_SCHEMA_VERSION)
            tags := some (payload.tags.getD ⟨[], []⟩)
            updated_at := some now }
    else store

/-- `remove_metadata`: unlink the sidecar for a hash if it exists. -/
def remove_metadata (store : SidecarStore) (sha256 : String) : SidecarStore :=
  assocErase store sha256

/-- C10: refreshing an existing sidecar through `ensure_metadata` preserves
its `tags` object — both the `manual` and the `derived` list are unchanged —
so a reconciliation pass that refreshes sidecars never removes previously
recorded tags. -/
theorem ensure_metadata_preserves_tags (store : SidecarStore)
    (relative_path : PathParts) (sha256 : String) (file_path : PathParts)
    (sizeOf : Content → Nat) (c : Content) (source method : String)
    (run_id : Option String) (now : String) (payload : Sidecar) (t : Tags)
    (hfound : assocFind store sha256 = some payload)
    (htags : payload.tags = some t) :
    ∃ payload',
      assocFind
        (ensure_metadata store relative_path sha256 file_path sizeOf c source
          method run_id now) sha256 = some payload' ∧
      payload'.tags = some t := by
  by_cases hupd :
      (payload.relative ≠ relative_path ∨ payload.sha256 ≠ sha256 ∨
        payload.kind ≠ detect_kind file_path ∨ payload.size_bytes ≠ sizeOf c)
  · refine ⟨{ payload with
        relative := relative_path
        sha256 := sha256
        kind := detect_kind file_path
        size_bytes := sizeOf c
        ingest := some (payload.ingest.getD ⟨source, method, run_id⟩)
        schema_version := some (payload.schema_version.getD METADATA_SCHEMA_VERSION)
        tags := some (payload.tags.getD ⟨[], []⟩)
        updated_at := some now }, ?_, by simp [htags]⟩
    simp only [ensure_metadata, hfound, hupd, if_true, assocFind_assocSet]
  · refine ⟨payload, ?_, htags⟩
    simp only [ensure_metadata, hfound, hupd, if_false]

/-- Witness for C10 at a concrete store holding one tagged sidecar. -/
theorem ensure_metadata_preserves_tags_witness :
    ∃ payload',
      assocFind
        (ensure_metadata
          [("h1", { schema_version := some 1, sha256 := "h1",
                    relative := ["ingest", "originals", "a.mov"], kind := "video",
                    size_bytes := 10, recorded_at := "t0", ingest := none,
                    tags := some ⟨["keep-me"], ["auto"]⟩, updated_at := none })]
          ["ingest", "originals", "b.mov"] "h1"
          ["ingest", "originals", "b.mov"] (fun _ => 11) 3 "reindex"
          "filesystem_scan" none "t1") "h1" = some payload' ∧
      payload'.tags = some ⟨["keep-me"], ["auto"]⟩ :=
  ensure_metadata_preserves_tags _ _ _ _ _ _ _ _ _ _
    { schema_version := some 1, sha256 := "h1",
      relative := ["ingest", "originals", "a.mov"], kind := "video",
      size_bytes := 10, recorded_at := "t0", ingest := none,
      tags := some ⟨["keep-me"], ["auto"]⟩, updated_at := none }
    ⟨["keep-me"], ["auto"]⟩ rfl rfl

/-! ## Bucket discovery (`app/storage/buckets.py`)

Relative roots and asset paths are `PathParts` ([] is `Path(".")`);
Python `set`s of asset paths are duplicate-free lists; the sqlite `buckets`
table is a list of rows keyed by `bucket_id`.  `bucket_id_for` computes
`sha256(f"{source_name}:{bucket_rel_root}")`; the digest of distinct inputs
being distinct, it is modelled as the pair itself (an injective stand-in for
a collision-free digest of the joined string). -/

def ALLOWED_MEDIA_EXTENSIONS : List String :=
  [".mp4", ".mov", ".avi", ".mkv", ".mp3", ".wav", ".flac", ".aac",
   ".jpg", ".jpeg", ".png", ".heic"]

namespace Buckets

def IGNORED_DIRS : List String :=
  [".ds_store", "@eadir", "__pycache__", "cache", "caches", "tmp", "temp",
   "_manifest", "_sources", "_tags"]

def IGNORED_FILES : List String := ["thumbs.db", ".ds_store"]

/-- The `stats` dict of a bucket. -/
structure BucketStats where
  count : Nat
  depth : Nat
  extensions : List (String × Nat)
  mixedness : Nat
deriving DecidableEq, Repr

/-- A row of the `buckets` table / the `Bucket` dataclass. -/
structure Bucket where
  bucket_id : String × PathParts
  source_name : String
  bucket_rel_root : PathParts
  title : String
  stats : BucketStats
  pinned : Bool
deriving DecidableEq, Repr

/-- `bucket_id_for`: stands for
`sha256(f"{source_name}:{bucket_rel_root}").hexdigest()`. -/
def bucket_id_for (source_name : String) (bucket_rel_root : PathParts) :
    String × PathParts :=
  (source_name, bucket_rel_root)

/-- `_contains_ignored_dir`. -/
def contains_ignored_dir (parts : PathParts) : Bool :=
  parts.any (fun part => strLower part ∈ IGNORED_DIRS)

/-- `_is_ancestor candidate descendant`: true when `candidate` is `"."`,
equals `descendant`, or is one of `descendant`'s parents — i.e. exactly when
`candidate`'s parts are a prefix of `descendant`'s. -/
def is_ancestor (candidate descendant : PathParts) : Bool :=
  candidate.isPrefixOf descendant

/-- `candidates.setdefault(rel_root, set()).add(rel_path)`. -/
def addAsset (cands : List (PathParts × List PathParts)) (root : PathParts)
    (asset : PathParts) : List (PathParts × List PathParts) :=
  match assocFind cands root with
  | none => cands ++ [(root, [asset])]
  | some assets =>
    if asset ∈ assets then cands else assocSet cands root (assets ++ [asset])

/-- `_collect_candidates` over the walked relative file paths of the source
root (the default `include_roots=None` case, where the whole tree is
walked): register each supported media file under every ancestor directory
up to the depth limit. -/
def collect_candidates (files : List PathParts) (max_depth : Nat) :
    List (PathParts × List PathParts) :=
  files.foldl
    (fun cands f =>
      if strLower (pathName f) ∈ IGNORED_FILES then cands
      else if contains_ignored_dir f then cands
      else if strLower (pathSuffix f) ∉ ALLOWED_MEDIA_EXTENSIONS then cands
      else
        let parent := f.dropLast
        if parent = [] then addAsset cands [] f
        else
          let depth_limit := if max_depth > 0 then max_depth else parent.length
          (List.range (min parent.length depth_limit)).foldl
            (fun cands i => addAsset cands (parent.take (i + 1)) f) cands)
    []

/-- One entry of the `scored` list in `_collapse_candidates`. -/
structure Scored where
  rel_root : PathParts
  assets : List PathParts
  stats : BucketStats
deriving DecidableEq, Repr

/-- `len(assets & kept_assets)` for duplicate-free lists. -/
def interCount (a b : List PathParts) : Nat :=
  (a.filter (fun x => x ∈ b)).length

/-- `len(assets & kept_assets) / min(len(assets), len(kept_assets))`,
as an exact rational (the denominator is at least 1 wherever this is
called, every scored candidate having a nonempty asset set). -/
def overlapQ (a b : List PathParts) : ℚ :=
  mkRat (interCount a b) (min a.length b.length)

/-- The inner `for kept_root, kept_assets, _ in kept` loop with its `break`:
walk the already-kept candidates; on the first with overlap at least
the threshold *and* for which the new candidate is an ancestor of the kept
root, report redundant. -/
def anyRedundant (t : ℚ) (c : Scored) : List Scored → Bool
  | [] => false
  | k :: rest =>
    if overlapQ c.assets k.assets ≥ t then
      if is_ancestor c.rel_root k.rel_root then true
      else anyRedundant t c rest
    else anyRedundant t c rest

/-- The outer greedy loop of `_collapse_candidates`: walk the scored
candidates in order, keeping each unless redundant with an already-kept
one. -/
def collapseGo (t : ℚ) : List Scored → List Scored → List Scored
  | [], kept => kept
  | c :: rest, kept =>
    if anyRedundant t c kept then collapseGo t rest kept
    else collapseGo t rest (kept ++ [c])

/-- The ranking: `a` may come before `b` exactly when
`(count_a, depth_a) ≥ (count_b, depth_b)` lexicographically
(`scored.sort(key=..., reverse=True)`). -/
def scoredBefore (a b : Scored) : Prop :=
  b.stats.count < a.stats.count ∨
    (b.stats.count = a.stats.count ∧ b.stats.depth ≤ a.stats.depth)

instance : DecidableRel scoredBefore := fun a b => by
  unfold scoredBefore; infer_instance

instance : IsTotal Scored scoredBefore :=
  ⟨by intro a b; unfold scoredBefore; omega⟩

instance : IsTrans Scored scoredBefore :=
  ⟨by intro a b c; unfold scoredBefore; omega⟩

/-- The stable descending sort of the scored candidates (CPython's sort is
stable; so is insertion sort). -/
def sortScored (l : List Scored) : List Scored :=
  List.insertionSort scoredBefore l

/-- `_collapse_candidates`. -/
def collapse_candidates (candidates : List (PathParts × List PathParts))
    (min_files max_depth max_buckets : Nat) (overlap_threshold : ℚ) :
    List Bucket :=
  let scored := candidates.filterMap (fun cand =>
    let rel_root := cand.1
    let assets := cand.2
    if assets.isEmpty then none
    else
      let depth := rel_root.length
      if max_depth > 0 ∧ depth > max_depth then none
      else if assets.length < max min_files 1 then none
      else
        let ext_counts := assets.foldl (fun acc item =>
          let ext := strLower (pathSuffix item)
          match assocFind acc ext with
          | some n => assocSet acc ext (n + 1)
          | none => assocSet acc ext 1) []
        some ⟨rel_root, assets, ⟨assets.length, depth, ext_counts, ext_counts.length⟩⟩)
  let kept := collapseGo overlap_threshold (sortScored scored) []
  let kept := if max_buckets > 0 ∧ max_buckets < kept.length
    then kept.take max_buckets else kept
  kept.map (fun s =>
    { bucket_id := ("pending", [])
      source_name := "pending"
      bucket_rel_root := s.rel_root
      title := if s.rel_root = [] then "Root" else pathName s.rel_root
      stats := s.stats
      pinned := false })

/-- `INSERT OR REPLACE INTO buckets`: replace the row with the same
`bucket_id`, else insert. -/
def insertOrReplaceBucket (l : List Bucket) (b : Bucket) : List Bucket :=
  match l with
  | [] => [b]
  | x :: rest =>
    if x.bucket_id = b.bucket_id then b :: rest
    else x :: insertOrReplaceBucket rest b

/-- `BucketStore.list_pinned`: the pinned rows of a source, ordered by
title. -/
def list_pinned (store : List Bucket) (source_name : String) : List Bucket :=
  List.insertionSort (fun a b => a.title ≤ b.title)
    (store.filter (fun b => b.source_name = source_name ∧ b.pinned = true))

/-- The parameters of `BucketStore.discover`, with the source defaults. -/
structure DiscoverParams where
  min_files : Nat := 1
  max_depth : Nat := 8
  max_buckets : Nat := 200
  overlap_threshold : ℚ := mkRat 9 10
deriving Repr

/-- The `pinned_map` of `discover`:
`{bucket.bucket_rel_root: bucket for bucket in pinned_existing}`. -/
def pinnedRelRootMap (pinned : List Bucket) : List (PathParts × Bucket) :=
  pinned.foldl (fun acc b => assocSet acc b.bucket_rel_root b) []

/-- The final loop of `discover`: re-insert (`INSERT OR REPLACE`, with
`pinned=1`) every previously pinned bucket whose root did not survive
discovery. -/
def reinsertPinned (discovered_roots : List PathParts)
    (pinned_map : List (PathParts × Bucket)) (store : List Bucket) :
    List Bucket :=
  pinned_map.foldl
    (fun (acc : List Bucket) (kv : PathParts × Bucket) =>
      if kv.1 ∈ discovered_roots then acc
      else insertOrReplaceBucket acc { kv.2 with pinned := true }) store

/-- The re-labelling of the collapsed buckets in `discover`: stable id from
`(source_name, rel_root)`, the source name, and the pinned flag looked up in
`pinned_map`. -/
def stampBuckets (source_name : String)
    (pinned_map : List (PathParts × Bucket)) (buckets0 : List Bucket) :
    List Bucket :=
  buckets0.map (fun b =>
    { bucket_id := bucket_id_for source_name b.bucket_rel_root
      source_name := source_name
      bucket_rel_root := b.bucket_rel_root
      title := b.title
      stats := b.stats
      pinned := (assocFind pinned_map b.bucket_rel_root).isSome })

/-- `DELETE FROM buckets WHERE source_name=? AND pinned=0`. -/
def deleteUnpinned (store : List Bucket) (source_name : String) : List Bucket :=
  store.filter (fun b => ¬ (b.source_name = source_name ∧ b.pinned = false))

/-- `BucketStore.discover`: run candidate collection and collapse over the
walked files, stamp ids/source/pinned flags, then persist — delete the
source's non-pinned rows, upsert every discovered bucket, and re-insert
every previously pinned bucket whose root was not re-discovered.  Returns
the new table contents and the discovered list. -/
def discover (store : List Bucket) (source_name : String)
    (files : List PathParts) (p : DiscoverParams) :
    List Bucket × List Bucket :=
  let cands := collect_candidates files p.max_depth
  let buckets0 := collapse_candidates cands p.min_files p.max_depth
    p.max_buckets p.overlap_threshold
  let pinned_map := pinnedRelRootMap (list_pinned store source_name)
  let buckets := stampBuckets source_name pinned_map buckets0
  let store1 := deleteUnpinned store source_name
  let store2 := buckets.foldl insertOrReplaceBucket store1
  let store3 := reinsertPinned (buckets.map (·.bucket_rel_root)) pinned_map store2
  (store3, buckets)

theorem anyRedundant_iff (t : ℚ) (c : Scored) (K : List Scored) :
    anyRedundant t c K = true ↔
      ∃ k ∈ K, overlapQ c.assets k.assets ≥ t ∧
        is_ancestor c.rel_root k.rel_root = true := by
  induction K with
  | nil => simp [anyRedundant]
  | cons k rest ih =>
    by_cases ho : overlapQ c.assets k.assets ≥ t
    · by_cases ha : is_ancestor c.rel_root k.rel_root = true
      · simp [anyRedundant, ho, ha]
      · simp [anyRedundant, ho, ha, ih]
    · simp [anyRedundant, ho, ih]

theorem collapseGo_concat (t : ℚ) (l : List Scored) (c : Scored) (K : List Scored) :
    collapseGo t (l ++ [c]) K =
      if anyRedundant t c (collapseGo t l K) then collapseGo t l K
      else collapseGo t l K ++ [c] := by
  induction l generalizing K with
  | nil => simp [collapseGo]
  | cons x rest ih =>
    by_cases hx : anyRedundant t x K
    · simp only [List.cons_append, collapseGo, hx, if_true]
      exact ih K
    · simp only [List.cons_append, collapseGo, hx, if_false, Bool.false_eq_true]
      exact ih (K ++ [x])

/-- C8 (amended): the greedy redundancy elimination walks the scored
candidates in `(count, depth)`-descending order (the sort is with respect to
that ranking), and a candidate is dropped *exactly* when its asset set
overlaps some already-kept candidate's asset set by at least
`overlap_threshold` **and the new candidate's directory is an ancestor of
the kept one's** (`_is_ancestor(rel_root, kept_root)` — the one direction
only).  It is kept in every other case, in particular when the *kept*
directory is an ancestor of the new candidate. -/
theorem collapse_redundancy_characterization :
    (∀ l' : List Scored, List.Sorted scoredBefore (sortScored l')) ∧
    (∀ (t : ℚ) (l : List Scored) (c : Scored),
      (collapseGo t (l ++ [c]) [] = collapseGo t l [] ↔
        ∃ k ∈ collapseGo t l [], overlapQ c.assets k.assets ≥ t ∧
          is_ancestor c.rel_root k.rel_root = true) ∧
      ((¬ ∃ k ∈ collapseGo t l [], overlapQ c.assets k.assets ≥ t ∧
          is_ancestor c.rel_root k.rel_root = true) →
        collapseGo t (l ++ [c]) [] = collapseGo t l [] ++ [c])) := by
  refine ⟨fun l' => List.sorted_insertionSort _ _, fun t l c => ⟨?_, ?_⟩⟩
  · rw [collapseGo_concat]
    by_cases h : anyRedundant t c (collapseGo t l []) = true
    · simp only [h, if_true, true_iff]
      exact (anyRedundant_iff t c (collapseGo t l [])).mp h
    · simp only [h, if_false, Bool.false_eq_true]
      constructor
      · intro heq
        have hlen := congrArg List.length heq
        simp at hlen
      · intro hex
        exact absurd ((anyRedundant_iff t c (collapseGo t l [])).mpr hex) h
  · intro hnex
    rw [collapseGo_concat, if_neg]
    intro hr
    exact hnex ((anyRedundant_iff t c (collapseGo t l [])).mp hr)

def cexScored : Scored := ⟨["a"], [["a", "x.mp4"]], ⟨1, 1, [(".mp4", 1)], 1⟩⟩

/-- Witness for C8's amended theorem: with nothing kept yet, a candidate is
kept. -/
theorem collapse_redundancy_characterization_witness :
    collapseGo (mkRat 9 10) ([] ++ [cexScored]) [] =
      collapseGo (mkRat 9 10) ([] : List Scored) [] ++ [cexScored] :=
  (collapse_redundancy_characterization.2 (mkRat 9 10) [] cexScored).2
    (by simp [collapseGo])

def cexFiles : List PathParts := [["a", "x.mp4"], ["a", "b", "y.mp4"]]

/-- C8, counterexample to the claim as stated: discovery over the two files
`a/x.mp4` and `a/b/y.mp4` scores the candidates `a` (count 2) and `a/b`
(count 1).  `a` is kept first; `a/b`'s asset set overlaps `a`'s by 1 ≥ 0.9
and the kept directory `a` *is* an ancestor of the candidate `a/b`, so under
the claim's symmetric condition `a/b` must be dropped — but the code tests
only `_is_ancestor(candidate, kept)` and keeps it: the result is two
buckets, `a` and `a/b`. -/
theorem collapse_keeps_nested_candidate :
    ((collapse_candidates (collect_candidates cexFiles 8) 1 8 200 (mkRat 9 10)).map
      (·.bucket_rel_root)) = [["a"], ["a", "b"]] ∧
    overlapQ [["a", "b", "y.mp4"]] [["a", "x.mp4"], ["a", "b", "y.mp4"]] ≥
      mkRat 9 10 ∧
    is_ancestor ["a"] ["a", "b"] = true :=
  ⟨by decide, by decide, by rfl⟩

theorem mem_insertOrReplaceBucket_self (l : List Bucket) (b : Bucket) :
    b ∈ insertOrReplaceBucket l b := by
  induction l with
  | nil => simp [insertOrReplaceBucket]
  | cons x rest ih =>
    by_cases h : x.bucket_id = b.bucket_id
    · simp [insertOrReplaceBucket, h]
    · simp only [insertOrReplaceBucket, h, if_false]
      exact List.mem_cons_of_mem _ ih

theorem mem_insertOrReplaceBucket_of_ne (l : List Bucket) (b c : Bucket)
    (hc : c ∈ l) (hne : c.bucket_id ≠ b.bucket_id) :
    c ∈ insertOrReplaceBucket l b := by
  induction l with
  | nil => cases hc
  | cons x rest ih =>
    rcases List.mem_cons.mp hc with rfl | hc'
    · by_cases h : c.bucket_id = b.bucket_id
      · exact absurd h hne
      · simp [insertOrReplaceBucket, h]
    · by_cases h : x.bucket_id = b.bucket_id
      · simp only [insertOrReplaceBucket, h, if_true]
        exact List.mem_cons_of_mem _ hc'
      · simp only [insertOrReplaceBucket, h, if_false]
        exact List.mem_cons_of_mem _ (ih hc')

theorem mem_foldl_insert_of_ne (bs : List Bucket) (l : List Bucket) (c : Bucket)
    (hc : c ∈ l) (hne : ∀ b ∈ bs, c.bucket_id ≠ b.bucket_id) :
    c ∈ bs.foldl insertOrReplaceBucket l := by
  induction bs generalizing l with
  | nil => simpa using hc
  | cons x rest ih =>
    simp only [List.foldl_cons]
    exact ih (insertOrReplaceBucket l x)
      (mem_insertOrReplaceBucket_of_ne _ _ _ hc (hne x (List.mem_cons_self _ _)))
      (fun b hb => hne b (List.mem_cons_of_mem _ hb))

theorem exists_mem_foldl_insert (source : String) (r : PathParts)
    (P : Bucket → Prop) (bs : List Bucket) (l : List Bucket)
    (hall : ∀ e ∈ bs, e.bucket_id = bucket_id_for source e.bucket_rel_root)
    (hP : ∀ e ∈ bs, e.bucket_rel_root = r → P e)
    (hex : ∃ d ∈ bs, d.bucket_rel_root = r) :
    ∃ d ∈ bs.foldl insertOrReplaceBucket l,
      d ∈ bs ∧ d.bucket_rel_root = r ∧ P d := by
  induction bs generalizing l with
  | nil =>
    rcases hex with ⟨d, hd, _⟩
    cases hd
  | cons x rest ih =>
    simp only [List.foldl_cons]
    by_cases hr : ∃ d ∈ rest, d.bucket_rel_root = r
    · obtain ⟨d, hd1, hd2, hd3, hd4⟩ := ih (insertOrReplaceBucket l x)
        (fun e he => hall e (List.mem_cons_of_mem _ he))
        (fun e he => hP e (List.mem_cons_of_mem _ he)) hr
      exact ⟨d, hd1, List.mem_cons_of_mem _ hd2, hd3, hd4⟩
    · rcases hex with ⟨d, hd, hdr⟩
      rcases List.mem_cons.mp hd with rfl | hd'
      · refine ⟨d, ?_, List.mem_cons_self _ _, hdr, hP d (List.mem_cons_self _ _) hdr⟩
        refine mem_foldl_insert_of_ne rest (insertOrReplaceBucket l d) d
          (mem_insertOrReplaceBucket_self _ _) ?_
        intro b hb heq
        rw [hall d (List.mem_cons_self _ _), hall b (List.mem_cons_of_mem _ hb)] at heq
        have hroot : d.bucket_rel_root = b.bucket_rel_root := by
          simpa [bucket_id_for] using heq
        exact hr ⟨b, hb, by rw [← hroot, hdr]⟩
      · exact absurd ⟨d, hd', hdr⟩ hr

theorem mem_assocSet {κ α : Type} [DecidableEq κ] (l : List (κ × α)) (k : κ)
    (v : α) (kv : κ × α) (h : kv ∈ assocSet l k v) : kv ∈ l ∨ kv = (k, v) := by
  induction l with
  | nil => simpa [assocSet] using h
  | cons x rest ih =>
    by_cases hx : x.1 = k
    · simp only [assocSet, hx, if_true] at h
      rcases List.mem_cons.mp h with rfl | h'
      · right; rfl
      · left; exact List.mem_cons_of_mem _ h'
    · simp only [assocSet, hx, if_false] at h
      rcases List.mem_cons.mp h with rfl | h'
      · left; exact List.mem_cons_self _ _
      · rcases ih h' with h'' | h''
        · left; exact List.mem_cons_of_mem _ h''
        · right; exact h''

theorem pinnedRelRootMap_mem_aux (P : PathParts × Bucket → Prop)
    (bs : List Bucket) (acc : List (PathParts × Bucket))
    (hacc : ∀ kv ∈ acc, P kv) (hbs : ∀ b ∈ bs, P (b.bucket_rel_root, b)) :
    ∀ kv ∈ bs.foldl (fun acc b => assocSet acc b.bucket_rel_root b) acc, P kv := by
  induction bs generalizing acc with
  | nil => simp only [List.foldl_nil]; exact hacc
  | cons x rest ih =>
    simp only [List.foldl_cons]
    refine ih (assocSet acc x.bucket_rel_root x) ?_
      (fun b hb => hbs b (List.mem_cons_of_mem _ hb))
    intro kv hkv
    rcases mem_assocSet _ _ _ _ hkv with h | rfl
    · exact hacc kv h
    · exact hbs x (List.mem_cons_self _ _)

theorem pinnedRelRootMap_mem (pinned : List Bucket) :
    ∀ kv ∈ pinnedRelRootMap pinned,
      kv.2 ∈ pinned ∧ kv.2.bucket_rel_root = kv.1 := by
  refine pinnedRelRootMap_mem_aux _ pinned []
    (fun kv h => absurd h (List.not_mem_nil kv)) ?_
  intro b hb
  exact ⟨hb, rfl⟩

theorem assocFind_isSome_assocSet {κ α : Type} [DecidableEq κ]
    (l : List (κ × α)) (k k' : κ) (v : α)
    (h : (assocFind l k).isSome) : (assocFind (assocSet l k' v) k).isSome := by
  induction l with
  | nil => simp [assocFind] at h
  | cons x rest ih =>
    simp only [assocSet]
    by_cases hx : x.1 = k'
    · simp only [hx, if_true]
      by_cases hk : k' = k
      · simp [assocFind, hk]
      · have hxk : ¬ x.1 = k := by rw [hx]; exact hk
        simp only [assocFind, hk, if_false]
        simp only [assocFind, hxk, if_false] at h
        exact h
    · simp only [hx, if_false]
      by_cases hxk : x.1 = k
      · simp [assocFind, hxk]
      · simp only [assocFind, hxk, if_false] at h ⊢
        exact ih h

theorem pinnedRelRootMap_find_isSome_aux (bs : List Bucket) (b : Bucket)
    (acc : List (PathParts × Bucket))
    (h : b ∈ bs ∨ (assocFind acc b.bucket_rel_root).isSome) :
    (assocFind (bs.foldl (fun acc x => assocSet acc x.bucket_rel_root x) acc)
      b.bucket_rel_root).isSome := by
  induction bs generalizing acc with
  | nil =>
    rcases h with h | h
    · cases h
    · simpa using h
  | cons x rest ih =>
    simp only [List.foldl_cons]
    rcases h with h | h
    · rcases List.mem_cons.mp h with rfl | h'
      · refine ih (assocSet acc b.bucket_rel_root b) (Or.inr ?_)
        simp [assocFind_assocSet]
      · exact ih _ (Or.inl h')
    · exact ih _ (Or.inr (assocFind_isSome_assocSet _ _ _ _ h))

theorem pinnedRelRootMap_find_isSome (pinned : List Bucket) (b : Bucket)
    (hb : b ∈ pinned) :
    (assocFind (pinnedRelRootMap pinned) b.bucket_rel_root).isSome :=
  pinnedRelRootMap_find_isSome_aux pinned b [] (Or.inl hb)


theorem assocFind_mem {κ α : Type} [DecidableEq κ] (l : List (κ × α)) (k : κ)
    (v : α) (h : assocFind l k = some v) : (k, v) ∈ l := by
  induction l with
  | nil => simp [assocFind] at h
  | cons x rest ih =>
    by_cases hx : x.1 = k
    · simp only [assocFind, hx, if_true, Option.some.injEq] at h
      have : x = (k, v) := by
        cases x
        simp_all
      rw [← this]
      exact List.mem_cons_self _ _
    · simp only [assocFind, hx, if_false] at h
      exact List.mem_cons_of_mem _ (ih h)


theorem assocSet_keys_mem {κ α : Type} [DecidableEq κ] (l : List (κ × α))
    (k : κ) (v : α) (k' : κ)
    (h : k' ∈ (assocSet l k v).map Prod.fst) :
    k' ∈ l.map Prod.fst ∨ k' = k := by
  induction l with
  | nil => simpa [assocSet] using h
  | cons x rest ih =>
    by_cases hx : x.1 = k
    · simp only [assocSet, hx, if_true, List.map_cons] at h
      rcases List.mem_cons.mp h with rfl | h'
      · right; rfl
      · left
        simp only [List.map_cons]
        exact List.mem_cons_of_mem _ h'
    · simp only [assocSet, hx, if_false, List.map_cons] at h
      rcases List.mem_cons.mp h with rfl | h'
      · left
        simp only [List.map_cons]
        exact List.mem_cons_self _ _
      · rcases ih h' with h'' | h''
        · left
          simp only [List.map_cons]
          exact List.mem_cons_of_mem _ h''
        · right; exact h''

theorem assocSet_keys_nodup {κ α : Type} [DecidableEq κ] (l : List (κ × α))
    (k : κ) (v : α) (h : (l.map Prod.fst).Nodup) :
    ((assocSet l k v).map Prod.fst).Nodup := by
  induction l with
  | nil => simp [assocSet]
  | cons x rest ih =>
    simp only [List.map_cons, List.nodup_cons] at h
    by_cases hx : x.1 = k
    · simp only [assocSet, hx, if_true, List.map_cons, List.nodup_cons]
      rw [← hx]
      exact h
    · simp only [assocSet, hx, if_false, List.map_cons, List.nodup_cons]
      refine ⟨?_, ih h.2⟩
      intro hmem
      rcases assocSet_keys_mem rest k v x.1 hmem with h' | h'
      · exact h.1 h'
      · exact hx h'

theorem pinnedRelRootMap_keys_nodup_aux (bs : List Bucket)
    (acc : List (PathParts × Bucket)) (hacc : (acc.map Prod.fst).Nodup) :
    (((bs.foldl (fun acc b => assocSet acc b.bucket_rel_root b) acc)).map
      Prod.fst).Nodup := by
  induction bs generalizing acc with
  | nil => simpa using hacc
  | cons x rest ih =>
    simp only [List.foldl_cons]
    exact ih _ (assocSet_keys_nodup _ _ _ hacc)

theorem pinnedRelRootMap_keys_nodup (pinned : List Bucket) :
    ((pinnedRelRootMap pinned).map Prod.fst).Nodup :=
  pinnedRelRootMap_keys_nodup_aux pinned [] (by simp)

theorem mem_reinsertPinned_of_ne (droots : List PathParts)
    (pmap : List (PathParts × Bucket)) (store : List Bucket) (c : Bucket)
    (hc : c ∈ store)
    (hne : ∀ kv ∈ pmap, kv.1 ∉ droots → c.bucket_id ≠ kv.2.bucket_id) :
    c ∈ reinsertPinned droots pmap store := by
  induction pmap generalizing store with
  | nil => simpa [reinsertPinned] using hc
  | cons kv rest ih =>
    simp only [reinsertPinned, List.foldl_cons]
    by_cases hd : kv.1 ∈ droots
    · simp only [hd, if_true]
      exact ih store hc (fun kv' h' => hne kv' (List.mem_cons_of_mem _ h'))
    · simp only [hd, if_false]
      refine ih _ ?_ (fun kv' h' => hne kv' (List.mem_cons_of_mem _ h'))
      exact mem_insertOrReplaceBucket_of_ne _ _ _ hc
        (hne kv (List.mem_cons_self _ _) hd)

theorem mem_reinsertPinned_inserted (source : String) (droots : List PathParts)
    (pmap : List (PathParts × Bucket)) (store : List Bucket) (r : PathParts)
    (v : Bucket) (hmem : (r, v) ∈ pmap) (hnd : r ∉ droots)
    (hkeys : (pmap.map Prod.fst).Nodup)
    (hcanon : ∀ kv ∈ pmap,
      kv.2.bucket_id = bucket_id_for source kv.2.bucket_rel_root ∧
        kv.2.bucket_rel_root = kv.1) :
    { v with pinned := true } ∈ reinsertPinned droots pmap store := by
  induction pmap generalizing store with
  | nil => cases hmem
  | cons kv rest ih =>
    simp only [reinsertPinned, List.foldl_cons]
    simp only [List.map_cons, List.nodup_cons] at hkeys
    rcases List.mem_cons.mp hmem with heq | hmem'
    · have hk1 : kv.1 = r := by rw [← heq]
      rw [← heq]
      simp only [hnd, if_false]
      refine mem_reinsertPinned_of_ne droots rest _ _
        (mem_insertOrReplaceBucket_self _ _) ?_
      intro kv' h' hnd' hid
      obtain ⟨hcv, hrv⟩ := hcanon (r, v) hmem
      obtain ⟨hcv', hrv'⟩ := hcanon kv' (List.mem_cons_of_mem _ h')
      simp only at hcv hrv
      have hid' : v.bucket_id = kv'.2.bucket_id := hid
      rw [hcv, hcv', hrv, hrv'] at hid'
      have hreq : r = kv'.1 := by simpa [bucket_id_for] using hid'
      refine hkeys.1 ?_
      rw [hk1, hreq]
      exact List.mem_map_of_mem Prod.fst h'
    · exact ih _ hmem'
        hkeys.2 (fun kv' h' => hcanon kv' (List.mem_cons_of_mem _ h'))

theorem mem_list_pinned_iff (store : List Bucket) (source : String)
    (x : Bucket) :
    x ∈ list_pinned store source ↔
      x ∈ store ∧ x.source_name = source ∧ x.pinned = true := by
  unfold list_pinned
  rw [(List.perm_insertionSort _ _).mem_iff]
  simp [List.mem_filter]


theorem mem_stampBuckets (source : String) (pmap : List (PathParts × Bucket))
    (B0 : List Bucket) (e : Bucket) (he : e ∈ stampBuckets source pmap B0) :
    e.bucket_id = bucket_id_for source e.bucket_rel_root ∧
      e.source_name = source ∧
      e.pinned = (assocFind pmap e.bucket_rel_root).isSome := by
  simp only [stampBuckets, List.mem_map] at he
  obtain ⟨b0, _, rfl⟩ := he
  exact ⟨rfl, rfl, rfl⟩

/-- C9: for every source and every previously pinned bucket of that
source, re-running `BucketStore.discover` leaves a pinned bucket with that
root present in the persisted store even when the clustering step does not
select its root (the walked `files` are arbitrary, so in particular the
collapse may not produce it); only non-pinned rows are deleted and replaced.
The hypothesis `hwf` states that every stored row carries the stable id
`bucket_id_for(source_name, rel_root)` — true of every row the code ever
writes (`discover` itself and `seed_roots`' callers). -/
theorem discover_preserves_pinned (store : List Bucket) (source : String)
    (files : List PathParts) (p : DiscoverParams) (b : Bucket)
    (hwf : ∀ row ∈ store,
      row.bucket_id = bucket_id_for row.source_name row.bucket_rel_root)
    (hb : b ∈ store) (hsrc : b.source_name = source) (hpin : b.pinned = true) :
    ∃ b' ∈ (discover store source files p).1,
      b'.bucket_rel_root = b.bucket_rel_root ∧ b'.source_name = source ∧
        b'.pinned = true := by
  have hbp : b ∈ list_pinned store source :=
    (mem_list_pinned_iff store source b).mpr ⟨hb, hsrc, hpin⟩
  have hcanon : ∀ kv ∈ pinnedRelRootMap (list_pinned store source),
      kv.2.bucket_id = bucket_id_for source kv.2.bucket_rel_root ∧
        kv.2.bucket_rel_root = kv.1 := by
    intro kv hkv
    obtain ⟨hmem, hroot⟩ := pinnedRelRootMap_mem _ kv hkv
    obtain ⟨hst, hs, _⟩ := (mem_list_pinned_iff store source kv.2).mp hmem
    refine ⟨?_, hroot⟩
    rw [hwf kv.2 hst, hs]
  have hfs : (assocFind (pinnedRelRootMap (list_pinned store source))
      b.bucket_rel_root).isSome :=
    pinnedRelRootMap_find_isSome _ b hbp
  obtain ⟨v, hv⟩ := Option.isSome_iff_exists.mp hfs
  have hvmem : (b.bucket_rel_root, v) ∈ pinnedRelRootMap (list_pinned store source) :=
    assocFind_mem _ _ _ hv
  obtain ⟨hvp, hvroot⟩ := pinnedRelRootMap_mem _ _ hvmem
  obtain ⟨hvst, hvsrc, hvpin⟩ := (mem_list_pinned_iff store source v).mp hvp
  simp only [discover]
  set pmap := pinnedRelRootMap (list_pinned store source) with hpmapdef
  set B := stampBuckets source pmap
    (collapse_candidates (collect_candidates files p.max_depth) p.min_files
      p.max_depth p.max_buckets p.overlap_threshold) with hBdef
  set store2 := B.foldl insertOrReplaceBucket (deleteUnpinned store source)
    with hstore2
  by_cases hd : b.bucket_rel_root ∈ B.map (·.bucket_rel_root)
  · obtain ⟨d, hdB, hdr⟩ := List.mem_map.mp hd
    obtain ⟨d', hd'fold, hd'B, hd'root, hd'src, hd'pin⟩ :=
      exists_mem_foldl_insert source b.bucket_rel_root
        (fun e => e.source_name = source ∧ e.pinned = true) B
        (deleteUnpinned store source)
        (fun e he => (mem_stampBuckets source pmap _ e he).1)
        (fun e he her => by
          obtain ⟨_, hes, hep⟩ := mem_stampBuckets source pmap _ e he
          refine ⟨hes, ?_⟩
          rw [hep, her, hv]
          rfl)
        ⟨d, hdB, hdr⟩
    refine ⟨d', ?_, hd'root, hd'src, hd'pin⟩
    refine mem_reinsertPinned_of_ne _ pmap store2 d' hd'fold ?_
    intro kv hkv hknd hid
    obtain ⟨hkc, hkr⟩ := hcanon kv hkv
    have hd'id := (mem_stampBuckets source pmap _ d' hd'B).1
    rw [hd'id, hkc, hkr] at hid
    have : d'.bucket_rel_root = kv.1 := by simpa [bucket_id_for] using hid
    apply hknd
    rw [← this, hd'root]
    exact hd
  · refine ⟨{ v with pinned := true }, ?_, ?_, ?_, rfl⟩
    · exact mem_reinsertPinned_inserted source _ pmap store2 b.bucket_rel_root v
        hvmem hd (pinnedRelRootMap_keys_nodup _) hcanon
    · exact hvroot
    · exact hvsrc


def pinnedRow : Bucket :=
  { bucket_id := bucket_id_for "lib" ["keep"]
    source_name := "lib"
    bucket_rel_root := ["keep"]
    title := "keep"
    stats := ⟨1, 1, [], 1⟩
    pinned := true }

/-- Witness for C9 at a one-row store and a discovery run that finds no
candidates at all (so clustering certainly does not select the root). -/
theorem discover_preserves_pinned_witness :
    ∃ b' ∈ (discover [pinnedRow] "lib" [] {}).1,
      b'.bucket_rel_root = pinnedRow.bucket_rel_root ∧
        b'.source_name = "lib" ∧ b'.pinned = true :=
  discover_preserves_pinned [pinnedRow] "lib" [] {} pinnedRow
    (by
      intro row hrow
      rcases List.mem_cons.mp hrow with rfl | h
      · rfl
      · cases h)
    (List.mem_cons_self _ _) rfl rfl

end Buckets


/-! ## Decimal rendering

`_dedupe_destination` renders the collision counter with an f-string;
`natToDec` is decimal rendering of a `Nat`, with a proof that it is
injective (needed to know the counter search terminates on a fresh name). -/

def digCh : Nat → Char
  | 0 => '0'
  | 1 => '1'
  | 2 => '2'
  | 3 => '3'
  | 4 => '4'
  | 5 => '5'
  | 6 => '6'
  | 7 => '7'
  | 8 => '8'
  | _ => '9'

def decChars (n : Nat) : List Char :=
  if _h : n < 10 then [digCh n]
  else decChars (n / 10) ++ [digCh (n % 10)]
decreasing_by exact Nat.div_lt_self (by omega) (by omega)

/-- Decimal rendering of a natural number (`f"{counter}"`). -/
def natToDec (n : Nat) : String := ⟨decChars n⟩

def dVal (c : Char) : Nat := c.toNat - 48

theorem dVal_digCh (d : Nat) (h : d < 10) : dVal (digCh d) = d := by
  interval_cases d <;> rfl

theorem decVal_decChars (n : Nat) :
    ∀ a, List.foldl (fun acc c => acc * 10 + dVal c) a (decChars n) =
      a * 10 ^ (decChars n).length + n := by
  induction n using Nat.strong_induction_on with
  | _ n ih =>
    intro a
    by_cases h : n < 10
    · rw [decChars]
      simp [h, dVal_digCh n h]
    · rw [decChars]
      simp only [h, dif_neg, not_false_iff]
      have hdiv : n / 10 < n := Nat.div_lt_self (by omega) (by omega)
      rw [List.foldl_append]
      rw [ih (n / 10) hdiv a]
      simp only [List.foldl_cons, List.foldl_nil, List.length_append,
        List.length_cons, List.length_nil]
      rw [dVal_digCh (n % 10) (Nat.mod_lt n (by omega))]
      rw [pow_succ]
      have := Nat.div_add_mod n 10
      ring_nf
      omega

theorem natToDec_injective : Function.Injective natToDec := by
  intro m n h
  have hd : decChars m = decChars n := congrArg String.data h
  have hm := decVal_decChars m 0
  have hn := decVal_decChars n 0
  rw [hd] at hm
  simp only [Nat.zero_mul, Nat.zero_add] at hm hn
  rw [hm] at hn
  exact hn

/-! ## The reconciliation engine (`app/storage/reindex.py`, with
`app/storage/index.py` and `app/storage/dedupe.py`)

State: the project's disk (media-relevant files as path/content pairs — the
catalog artifacts `index.json`, `_manifest/manifest.db` and the
`ingest/_metadata` sidecars are carried as separate components of
`PState`), the catalog index, the content manifest (sqlite table with
`sha256 TEXT PRIMARY KEY`, an association list with duplicate-free keys),
and the sidecar store. -/

namespace Reindex

/-- Outcome of `normalize_video_orientation_in_place` on a rotated video
during reindex: bytes rewritten to `c'`, returned `changed=False`, or raised
`OrientationError` (by the rollback theorem the original bytes are then
intact). -/
inductive NormOutcome where
  | changed (c' : Content)
  | unchanged
  | failed
deriving DecidableEq, Repr

/-- Environment of a reconciliation pass: the content hash
(`compute_sha256_from_path` as a function of the bytes), file sizes, the
reindex-level rotation probe (`ffprobe_video`; `none` = `OrientationError`),
the normalizer outcome on a rotated file, and the timestamp. -/
structure Env where
  hash : Content → String
  sizeOf : Content → Nat
  probeRot : Content → Option Int
  normf : Content → NormOutcome
  now : String

/-- A catalog index entry as written by this code. -/
structure FileEntry where
  relative_path : PathParts
  sha256 : String
  size : Nat
  indexed_at : String
deriving DecidableEq, Repr

/-- The `counts` block of `index.json` (`DEFAULT_COUNTS`). -/
structure Counts where
  videos : Nat
  duplicates_skipped : Nat
  removed_missing_records : Nat
deriving DecidableEq, Repr

/-- `index.json`. -/
structure Index where
  files : List FileEntry
  counts : Counts
deriving DecidableEq, Repr

/-- `bump_count`: `counts[key] = max(0, counts.get(key, 0) + amount)`. -/
def bump_count_val (current : Nat) (amount : Int) : Nat :=
  (max 0 ((current : Int) + amount)).toNat

/-- `save_index` writes the given index verbatim (`json.dump`); the model of
the persisted file is the value itself.  There is no invariant check. -/
def save_index (index : Index) : Index := index

/-- `append_file_entry`. -/
def append_file_entry (index : Index) (entry : FileEntry) : Index :=
  save_index
    { files := index.files ++ [entry]
      counts := { index.counts with
        videos := bump_count_val index.counts.videos 1 } }

/-- `remove_entries`. -/
def remove_entries (index : Index) (relative_paths : List PathParts) : Index :=
  let files := index.files.filter (fun e => e.relative_path ∉ relative_paths)
  let removed := index.files.length - files.length
  save_index <|
    if removed ≠ 0 then
      { files := files
        counts :=
          { videos := bump_count_val index.counts.videos (-(removed : Int))
            duplicates_skipped := index.counts.duplicates_skipped
            removed_missing_records :=
              bump_count_val index.counts.removed_missing_records removed } }
    else { index with files := files }

/-- Update the first entry whose `relative_path` matches
(`update_file_entry` iterates and returns at the first hit). -/
def updateFirst (files : List FileEntry) (rel : PathParts) (sha : String)
    (size : Nat) (stamp : String) : List FileEntry :=
  match files with
  | [] => []
  | e :: rest =>
    if e.relative_path = rel then
      { e with sha256 := sha, size := size, indexed_at := stamp } :: rest
    else e :: updateFirst rest rel sha size stamp

/-- `update_file_entry` with the field dict reindex passes
(`sha256`, `size`, `indexed_at`). -/
def update_file_entry (index : Index) (rel : PathParts) (sha : String)
    (size : Nat) (stamp : String) : Index :=
  save_index { index with files := updateFirst index.files rel sha size stamp }

/-- The content manifest (`_manifest/manifest.db`):
`sha256 TEXT PRIMARY KEY, relative_path TEXT`. -/
abbrev Manifest := List (String × PathParts)

/-- `record_file_hash`: return the existing canonical path for the hash, or
insert and return none. -/
def record_file_hash (db : Manifest) (sha256 : String)
    (relative_path : PathParts) : Option PathParts × Manifest :=
  match assocFind db sha256 with
  | some existing => (some existing, db)
  | none => (none, db ++ [(sha256, relative_path)])

/-- `get_recorded_paths` as a lookup (`{sha: path}` from `SELECT`). -/
def get_recorded_paths (db : Manifest) (sha : String) : Option PathParts :=
  assocFind db sha

/-- `remove_file_record`: delete the record only if it still points at
`relative_path`. -/
def remove_file_record (db : Manifest) (sha256 : String)
    (relative_path : PathParts) : Manifest :=
  db.filter (fun kv => ¬ (kv.1 = sha256 ∧ kv.2 = relative_path))

def INGEST_DIR : PathParts := ["ingest", "originals"]

/-- `pre.isPrefixOf s` at character level (`str.startswith`). -/
def strStartsWith (s pre : String) : Bool := pre.data.isPrefixOf s.data

/-- `str.endswith`. -/
def strEndsWith (s suf : String) : Bool := suf.data.isSuffixOf s.data

/-- Modelled from the spec: `is_thumbnail_path` is imported from
`app.storage.paths` but its definition is missing from the source tree.
Spec §6: derived thumbnails live at `ingest/thumbnails/<hash>.jpg`, a cache
area, not media — a path with a `thumbnails` component is cache. -/
def is_thumbnail_path (p : PathParts) : Bool := p.contains "thumbnails"

/-- Modelled from the spec: `is_temporary_path` is imported from
`app.storage.paths` but its definition is missing from the source tree.
Spec §4.3 step 4 and §5: temp/lock artifacts are skipped — the orientation
normalizer's `.tmp.…`/`.bak.…` siblings and `.lock` lease files (the test
suite expects `.tmp.…` names to be skipped by reindex). -/
def is_temporary_path (p : PathParts) : Bool :=
  strStartsWith (pathName p) ".tmp." || strStartsWith (pathName p) ".bak." ||
    strEndsWith (pathName p) ".lock"

/-- `_is_supported_media`. -/
def _is_supported_media (p : PathParts) : Bool :=
  ALLOWED_MEDIA_EXTENSIONS.contains (strLower (pathSuffix p)) &&
    !is_thumbnail_path p && !is_temporary_path p

/-- `_is_video_media`. -/
def _is_video_media (p : PathParts) : Bool :=
  VIDEO_EXTENSIONS.contains (strLower (pathSuffix p))

/-- `_is_manifest_path`: first component starts with `_manifest`. -/
def _is_manifest_path (p : PathParts) : Bool :=
  match p with
  | [] => false
  | c :: _ => strStartsWith c "_manifest"

/-- `_is_within_ingest`: `path.relative_to(ingest_path)` succeeds. -/
def _is_within_ingest (p : PathParts) : Bool := INGEST_DIR.isPrefixOf p

/-- A file on disk, by project-relative path. -/
structure DiskFile where
  path : PathParts
  content : Content
deriving DecidableEq, Repr

abbrev Disk := List DiskFile

/-- The name `f"{stem}_{counter}{suffix}"` at a counter value. -/
def withCounter (target : PathParts) (k : Nat) : PathParts :=
  target.dropLast ++
    [nameStem (pathName target) ++ "_" ++ natToDec k ++ nameSuffix (pathName target)]

/-- The counter loop of `_dedupe_destination`, fuelled; `occupied.length + 1`
candidates always contain a fresh one (the counter names are pairwise
distinct), so the fuel never runs out on the reachable side. -/
def dedupeFrom (occupied : List PathParts) (target : PathParts) :
    Nat → Nat → PathParts
  | k, 0 => withCounter target k
  | k, fuel + 1 =>
    let cand := withCounter target k
    if cand ∈ occupied then dedupeFrom occupied target (k + 1) fuel else cand

/-- `_dedupe_destination` against the set of currently existing paths. -/
def _dedupe_destination (occupied : List PathParts) (target : PathParts) :
    PathParts :=
  if target ∈ occupied then dedupeFrom occupied target 1 (occupied.length + 1)
  else target

/-- One candidate of `_relocate_misplaced_media`'s loop: skip bookkeeping
paths, paths already inside the canonical tree and unsupported media;
otherwise move the file to the collision-free destination inside
`ingest/originals`, preserving its relative sub-path. -/
def relocateStep (acc : Disk × Nat) (f : DiskFile) : Disk × Nat :=
  if _is_manifest_path f.path || _is_within_ingest f.path then acc
  else if !_is_supported_media f.path then acc
  else
    let destination := INGEST_DIR ++ f.path
    let dest := _dedupe_destination (acc.1.map (·.path)) destination
    ((acc.1.filter (fun g => g.path ≠ f.path)) ++ [⟨dest, f.content⟩], acc.2 + 1)

/-- `_relocate_misplaced_media`: walk the project tree (the files as they
were when the walk started) and move strays into the ingest tree. -/
def _relocate_misplaced_media (disk : Disk) : Disk × Nat :=
  disk.foldl relocateStep (disk, 0)

/-- `_maybe_normalize_for_reindex`: `none` = no normalization needed (this
includes a probe `OrientationError`), `some true` = bytes changed,
`some false` = normalization attempted and failed (bytes intact). -/
def _maybe_normalize_for_reindex (env : Env) (c : Content) :
    Option Bool × Content :=
  match env.probeRot c with
  | none => (none, c)
  | some r =>
    if r ∈ ([90, 180, 270] : List Int) then
      match env.normf c with
      | .changed c' => (some true, c')
      | .unchanged => (none, c)
      | .failed => (some false, c)
    else (none, c)

/-- The normalization applied to a file in the scan loop
(`if normalize_videos and _is_video_media(file_path)`). -/
def normResult (env : Env) (normalize_videos : Bool) (f : DiskFile) :
    Option Bool × Content :=
  if normalize_videos && _is_video_media f.path then
    _maybe_normalize_for_reindex env f.content
  else (none, f.content)

/-- The catalog-bearing state of one project. -/
structure PState where
  disk : Disk
  index : Index
  manifest : Manifest
  sidecars : SidecarStore
deriving DecidableEq, Repr

/-- `{entry["relative_path"]: entry}` over the loaded index (last writer
wins, keys in first-appearance order, like a Python dict). -/
def lastEntryMap (files : List FileEntry) : List (PathParts × FileEntry) :=
  files.foldl (fun acc e => assocSet acc e.relative_path e) []

/-- The initial `sha_ref_counts` over the values of `existing_entries`. -/
def initRefCounts (existing_entries : List (PathParts × FileEntry)) :
    List (String × Nat) :=
  existing_entries.foldl
    (fun acc kv =>
      if kv.2.sha256 ≠ "" then
        assocSet acc kv.2.sha256 ((assocFind acc kv.2.sha256).getD 0 + 1)
      else acc)
    []

/-- `_decrement_sha_refcount`. -/
def _decrement_sha_refcount (counts : List (String × Nat)) (sha : String) :
    Bool × List (String × Nat) :=
  if sha = "" then (false, counts)
  else
    let updated := (assocFind counts sha).getD 0 - 1
    (decide (updated > 0), assocSet counts sha updated)

/-- The running state of the scan loop. -/
structure ScanState where
  st : PState
  refc : List (String × Nat)
  seen : List PathParts
  new_count : Nat
  skipped_unsupported : Nat
  normalized : Nat
  normalization_failed : Nat
deriving Repr

/-- The body of one scan iteration for a supported file (everything after
the `skipped_unsupported` guard). -/
def scanStepSup (env : Env) (normalize_videos : Bool)
    (existing_entries : List (PathParts × FileEntry))
    (existing_paths : List PathParts) (s : ScanState) (f : DiskFile) :
    ScanState :=
  let nr := normResult env normalize_videos f
  let c' := nr.2
  let s := { s with
    normalized := if nr.1 = some true then s.normalized + 1 else s.normalized
    normalization_failed :=
      if nr.1 = some false then s.normalization_failed + 1
      else s.normalization_failed
    st := { s.st with
      disk := s.st.disk.map
        (fun (g : DiskFile) =>
          if g.path = f.path then { g with content := c' } else g) } }
  let rel := f.path
  let s := { s with seen := s.seen ++ [rel] }
  let sha := env.hash c'
  let rec1 := record_file_hash s.st.manifest sha rel
  let duplicate := rec1.1
  let existing_entry := assocFind existing_entries rel
  let db2 :=
    match existing_entry with
    | some e =>
      if e.sha256 ≠ "" ∧ e.sha256 ≠ sha then remove_file_record rec1.2 e.sha256 rel
      else rec1.2
    | none => rec1.2
  let sc1 := ensure_metadata s.st.sidecars rel sha f.path env.sizeOf c'
    "reindex" "filesystem_scan" none env.now
  let s := { s with st := { s.st with manifest := db2, sidecars := sc1 } }
  if duplicate.isSome ∧ rel ∈ existing_paths then s
  else if rel ∈ existing_paths then
    match existing_entry with
    | some e =>
      if e.sha256 ≠ sha then
        let idx := update_file_entry s.st.index rel sha (env.sizeOf c') env.now
        if e.sha256 ≠ "" then
          let dec := _decrement_sha_refcount s.refc e.sha256
          let sc2 := if !dec.1 then remove_metadata sc1 e.sha256 else sc1
          { s with st := { s.st with index := idx, sidecars := sc2 },
                   refc := dec.2 }
        else { s with st := { s.st with index := idx } }
      else s
    | none => s
  else
    { s with
      st := { s.st with
        index := append_file_entry s.st.index ⟨rel, sha, env.sizeOf c', env.now⟩ }
      new_count := s.new_count + 1 }

/-- One iteration of the scan loop of `reindex_project` for the file
`file_path` (here `f`): skip unsupported names; normalize rotated video
before hashing; hash; `record_file_hash`; drop the manifest record of a
changed file's old hash when it still points here; refresh the sidecar;
then the three-way branch — manifest duplicate of an already-indexed path:
nothing; known path with changed hash: update in place, decrement the old
hash's refcount and drop its sidecar at zero; new path: append. -/
def scanStep (env : Env) (normalize_videos : Bool)
    (existing_entries : List (PathParts × FileEntry))
    (existing_paths : List PathParts) (s : ScanState) (f : DiskFile) :
    ScanState :=
  if !_is_supported_media f.path then
    { s with skipped_unsupported := s.skipped_unsupported + 1 }
  else
    scanStepSup env normalize_videos existing_entries existing_paths s f

/-- `_unsupported_entries` (falsy paths are skipped). -/
def _unsupported_entries (paths : List PathParts) : List PathParts :=
  paths.filter (fun p => p ≠ [] ∧ !_is_supported_media p)

/-- `missing_paths = (existing_paths - seen_paths) | unsupported_existing`
as a duplicate-free list. -/
def missingPaths (existing_paths : List PathParts) (seen : List PathParts) :
    List PathParts :=
  existing_paths.dedup.filter
    (fun p => p ∉ seen ∨ (p ≠ [] ∧ !_is_supported_media p))

/-- The body of the disappearance loop for one missing path: for each
matching entry of the loaded index, drop the manifest record if the
snapshot still points it at the missing path, decrement the hash's
refcount, and delete the sidecar at zero. -/
def sweepEntryStep (dbSnapshot : String → Option PathParts)
    (missing : PathParts)
    (acc : Manifest × SidecarStore × List (String × Nat))
    (e : FileEntry) : Manifest × SidecarStore × List (String × Nat) :=
  let sha := e.sha256
  let db :=
    if sha ≠ "" ∧ dbSnapshot sha = some missing then
      remove_file_record acc.1 sha missing
    else acc.1
  if sha ≠ "" then
    let dec := _decrement_sha_refcount acc.2.2 sha
    let sc := if !dec.1 then remove_metadata acc.2.1 sha else acc.2.1
    (db, sc, dec.2)
  else (db, acc.2.1, acc.2.2)

def missingStep (dbSnapshot : String → Option PathParts)
    (initial_files : List FileEntry)
    (acc : Manifest × SidecarStore × List (String × Nat))
    (missing : PathParts) : Manifest × SidecarStore × List (String × Nat) :=
  (initial_files.filter (fun e => e.relative_path = missing)).foldl
    (sweepEntryStep dbSnapshot missing) acc

/-- The result dict of `reindex_project` (the `files` list is the appended
entries, recoverable from the index; the counters are what the claims are
about). -/
structure ReindexResult where
  indexed : Nat
  removed : Nat
  relocated : Nat
  skipped_unsupported : Nat
  normalized : Nat
  normalization_failed : Nat
deriving DecidableEq, Repr

/-- `reindex_project` (`app/storage/reindex.py:34-141`): relocate strays,
scan the canonical ingest tree (normalize-before-hash, hash, reconcile
manifest/sidecars/index per file), then remove disappeared or unsupported
index entries with their manifest records and (at refcount zero) sidecars. -/
def reindex_project (env : Env) (st : PState)
    (normalize_videos : Bool := true) : PState × ReindexResult :=
  let existing_entries := lastEntryMap st.index.files
  let refc0 := initRefCounts existing_entries
  let existing_paths := st.index.files.map (·.relative_path)
  let reloc := _relocate_misplaced_media st.disk
  let scanFiles := reloc.1.filter (fun f => _is_within_ingest f.path)
  let s0 : ScanState :=
    { st := { st with disk := reloc.1 }, refc := refc0, seen := []
      new_count := 0, skipped_unsupported := 0, normalized := 0
      normalization_failed := 0 }
  let s := scanFiles.foldl
    (scanStep env normalize_videos existing_entries existing_paths) s0
  let missing := missingPaths existing_paths s.seen
  let final :=
    if missing ≠ [] then
      let dbSnap := fun h => get_recorded_paths s.st.manifest h
      let swept := missing.foldl (missingStep dbSnap st.index.files)
        (s.st.manifest, s.st.sidecars, s.refc)
      { s.st with
        manifest := swept.1
        sidecars := swept.2.1
        index := remove_entries s.st.index missing }
    else s.st
  (final,
    { indexed := s.new_count
      removed := missing.length
      relocated := reloc.2
      skipped_unsupported := s.skipped_unsupported
      normalized := s.normalized
      normalization_failed := s.normalization_failed })


theorem contentUpdate_map_path (disk : Disk) (p : PathParts) (c' : Content) :
    ((disk.map (fun (g : DiskFile) =>
      if g.path = p then { g with content := c' } else g)).map (·.path)) =
      disk.map (·.path) := by
  rw [List.map_map]
  apply List.map_congr_left
  intro g _
  by_cases h : g.path = p <;> simp [h]

theorem updateFirst_paths (files : List FileEntry) (rel : PathParts)
    (sha : String) (size : Nat) (stamp : String) :
    ((updateFirst files rel sha size stamp).map (·.relative_path)) =
      files.map (·.relative_path) := by
  induction files with
  | nil => rfl
  | cons e rest ih =>
    by_cases h : e.relative_path = rel
    · simp [updateFirst, h]
    · simp [updateFirst, h, ih]

theorem scanStepSup_disk_paths (env : Env) (nv : Bool)
    (ee : List (PathParts × FileEntry)) (ep : List PathParts)
    (s : ScanState) (f : DiskFile) :
    ((scanStepSup env nv ee ep s f).st.disk.map (·.path)) =
      s.st.disk.map (·.path) := by
  simp only [scanStepSup]
  split
  · exact contentUpdate_map_path ..
  · split
    · split
      · split
        · split <;> exact contentUpdate_map_path ..
        · exact contentUpdate_map_path ..
      · exact contentUpdate_map_path ..
    · exact contentUpdate_map_path ..

theorem scanStepSup_seen (env : Env) (nv : Bool)
    (ee : List (PathParts × FileEntry)) (ep : List PathParts)
    (s : ScanState) (f : DiskFile) :
    (scanStepSup env nv ee ep s f).seen = s.seen ++ [f.path] := by
  simp only [scanStepSup]
  split
  · rfl
  · split
    · split
      · split
        · split <;> rfl
        · rfl
      · rfl
    · rfl

theorem scanStepSup_index_paths (env : Env) (nv : Bool)
    (ee : List (PathParts × FileEntry)) (ep : List PathParts)
    (s : ScanState) (f : DiskFile) :
    ((scanStepSup env nv ee ep s f).st.index.files.map (·.relative_path)) =
      if f.path ∈ ep then s.st.index.files.map (·.relative_path)
      else s.st.index.files.map (·.relative_path) ++ [f.path] := by
  simp only [scanStepSup]
  split
  · rename_i h
    rw [if_pos h.2]
  · split
    · split
      · split
        · split <;> simp [update_file_entry, save_index, updateFirst_paths]
        · rfl
      · rfl
    · simp [append_file_entry, save_index]

theorem scanStepSup_new_count (env : Env) (nv : Bool)
    (ee : List (PathParts × FileEntry)) (ep : List PathParts)
    (s : ScanState) (f : DiskFile) :
    (scanStepSup env nv ee ep s f).new_count =
      if f.path ∈ ep then s.new_count else s.new_count + 1 := by
  simp only [scanStepSup]
  split
  · rename_i h
    rw [if_pos h.2]
  · split
    · split
      · split
        · split <;> rfl
        · rfl
      · rfl
    · rfl

theorem scanStepSup_normalization_failed (env : Env) (nv : Bool)
    (ee : List (PathParts × FileEntry)) (ep : List PathParts)
    (s : ScanState) (f : DiskFile) :
    (scanStepSup env nv ee ep s f).normalization_failed =
      if (normResult env nv f).1 = some false then s.normalization_failed + 1
      else s.normalization_failed := by
  simp only [scanStepSup]
  split
  · rfl
  · split
    · split
      · split
        · split <;> rfl
        · rfl
      · rfl
    · rfl


theorem scanStep_eq (env : Env) (nv : Bool)
    (ee : List (PathParts × FileEntry)) (ep : List PathParts)
    (s : ScanState) (f : DiskFile) :
    scanStep env nv ee ep s f =
      if _is_supported_media f.path then scanStepSup env nv ee ep s f
      else { s with skipped_unsupported := s.skipped_unsupported + 1 } := by
  simp only [scanStep, Bool.not_eq_true']
  by_cases h : _is_supported_media f.path <;> simp [h]

/-- Scanning never changes which paths exist on disk. -/
theorem scanFold_disk_paths (env : Env) (nv : Bool)
    (ee : List (PathParts × FileEntry)) (ep : List PathParts)
    (l : List DiskFile) (s : ScanState) :
    ((l.foldl (scanStep env nv ee ep) s).st.disk.map (·.path)) =
      s.st.disk.map (·.path) := by
  induction l generalizing s with
  | nil => rfl
  | cons f rest ih =>
    simp only [List.foldl_cons]
    rw [ih, scanStep_eq]
    by_cases h : _is_supported_media f.path
    · simp [h, scanStepSup_disk_paths]
    · simp [h]

/-- `seen_paths` collects exactly the supported scanned paths, in order. -/
theorem scanFold_seen (env : Env) (nv : Bool)
    (ee : List (PathParts × FileEntry)) (ep : List PathParts)
    (l : List DiskFile) (s : ScanState) :
    (l.foldl (scanStep env nv ee ep) s).seen =
      s.seen ++ (l.filter (fun f => _is_supported_media f.path)).map (·.path) := by
  induction l generalizing s with
  | nil => simp
  | cons f rest ih =>
    simp only [List.foldl_cons]
    rw [ih, scanStep_eq]
    by_cases h : _is_supported_media f.path
    · simp [h, scanStepSup_seen]
    · simp [h]

/-- The index's path list after the scan loop: the original paths plus one
append per supported scanned file whose path is not in `existing_paths`. -/
theorem scanFold_index_paths (env : Env) (nv : Bool)
    (ee : List (PathParts × FileEntry)) (ep : List PathParts)
    (l : List DiskFile) (s : ScanState) :
    ((l.foldl (scanStep env nv ee ep) s).st.index.files.map (·.relative_path)) =
      s.st.index.files.map (·.relative_path) ++
        ((l.filter (fun f => _is_supported_media f.path ∧ f.path ∉ ep)).map
          (·.path)) := by
  induction l generalizing s with
  | nil => simp
  | cons f rest ih =>
    simp only [List.foldl_cons]
    rw [ih, scanStep_eq]
    by_cases h : _is_supported_media f.path
    · by_cases hm : f.path ∈ ep
      · simp [h, hm, scanStepSup_index_paths]
      · simp [h, hm, scanStepSup_index_paths]
    · simp [h]

theorem scanFold_new_count (env : Env) (nv : Bool)
    (ee : List (PathParts × FileEntry)) (ep : List PathParts)
    (l : List DiskFile) (s : ScanState) :
    (l.foldl (scanStep env nv ee ep) s).new_count =
      s.new_count +
        (l.filter (fun f => _is_supported_media f.path ∧ f.path ∉ ep)).length := by
  induction l generalizing s with
  | nil => simp
  | cons f rest ih =>
    simp only [List.foldl_cons]
    rw [ih, scanStep_eq]
    by_cases h : _is_supported_media f.path
    · by_cases hm : f.path ∈ ep
      · simp [h, hm, scanStepSup_new_count]
      · simp [List.filter_cons, h, hm, scanStepSup_new_count]
        omega
    · simp [h]

theorem scanFold_normalization_failed (env : Env) (nv : Bool)
    (ee : List (PathParts × FileEntry)) (ep : List PathParts)
    (l : List DiskFile) (s : ScanState) :
    (l.foldl (scanStep env nv ee ep) s).normalization_failed =
      s.normalization_failed +
        (l.filter (fun f => _is_supported_media f.path ∧
          (normResult env nv f).1 = some false)).length := by
  induction l generalizing s with
  | nil => simp
  | cons f rest ih =>
    simp only [List.foldl_cons]
    rw [ih, scanStep_eq]
    by_cases h : _is_supported_media f.path
    · by_cases hn : (normResult env nv f).1 = some false
      · simp [List.filter_cons, h, hn, scanStepSup_normalization_failed]
        omega
      · simp [h, hn, scanStepSup_normalization_failed]
    · simp [h]


/-- The skip condition of `_relocate_misplaced_media`'s loop, as a predicate
of the path. -/
def relocSkip (p : PathParts) : Prop :=
  (_is_manifest_path p || _is_within_ingest p) = true ∨
    _is_supported_media p = false

instance : DecidablePred relocSkip := fun p => by
  unfold relocSkip; infer_instance

theorem relocateStep_of_skip (acc : Disk × Nat) (f : DiskFile)
    (h : relocSkip f.path) : relocateStep acc f = acc := by
  rcases h with h | h
  · simp [relocateStep, h]
  · simp only [relocateStep, h, Bool.not_false, if_true]
    split <;> rfl

theorem relocateFold_skip (l : List DiskFile) (acc : Disk × Nat)
    (h : ∀ f ∈ l, relocSkip f.path) : l.foldl relocateStep acc = acc := by
  induction l generalizing acc with
  | nil => rfl
  | cons f rest ih =>
    simp only [List.foldl_cons]
    rw [relocateStep_of_skip acc f (h f (List.mem_cons_self _ _))]
    exact ih acc (fun g hg => h g (List.mem_cons_of_mem _ hg))

theorem sup_nil_false : _is_supported_media ([] : PathParts) = false := by decide

theorem within_append (x : PathParts) :
    _is_within_ingest (INGEST_DIR ++ x) = true := by
  rw [_is_within_ingest, List.isPrefixOf_iff_prefix]
  exact List.prefix_append _ _

theorem withCounter_within (p : PathParts) (hp : p ≠ []) (k : Nat) :
    _is_within_ingest (withCounter (INGEST_DIR ++ p) k) = true := by
  rw [withCounter, List.dropLast_append_of_ne_nil _ hp, List.append_assoc]
  exact within_append _

theorem dedupeFrom_eq_withCounter (occ : List PathParts) (target : PathParts) :
    ∀ fuel k, ∃ j, dedupeFrom occ target k fuel = withCounter target j := by
  intro fuel
  induction fuel with
  | zero => exact fun k => ⟨k, rfl⟩
  | succ n ih =>
    intro k
    simp only [dedupeFrom]
    by_cases h : withCounter target k ∈ occ
    · simpa [h] using ih (k + 1)
    · exact ⟨k, by simp [h]⟩

theorem dest_within (occ : List PathParts) (p : PathParts) (hp : p ≠ []) :
    _is_within_ingest (_dedupe_destination occ (INGEST_DIR ++ p)) = true := by
  rw [_dedupe_destination]
  split
  · obtain ⟨j, hj⟩ := dedupeFrom_eq_withCounter occ (INGEST_DIR ++ p)
      (occ.length + 1) 1
    rw [hj]
    exact withCounter_within p hp j
  · exact within_append p

theorem sup_ne_nil (p : PathParts) (h : _is_supported_media p = true) :
    p ≠ [] := by
  intro hnil
  rw [hnil, sup_nil_false] at h
  cases h

theorem relocateFold_classified (l : List DiskFile) (acc : Disk × Nat)
    (h : ∀ g ∈ acc.1, relocSkip g.path ∨
      ∃ f ∈ l, f.path = g.path ∧ ¬ relocSkip f.path) :
    ∀ g ∈ (l.foldl relocateStep acc).1, relocSkip g.path := by
  induction l generalizing acc with
  | nil =>
    intro g hg
    rcases h g hg with hk | ⟨f, hf, _⟩
    · exact hk
    · cases hf
  | cons f rest ih =>
    simp only [List.foldl_cons]
    by_cases hf : relocSkip f.path
    · rw [relocateStep_of_skip acc f hf]
      refine ih acc ?_
      intro g hg
      rcases h g hg with hk | ⟨f', hf', hfp, hfs⟩
      · exact Or.inl hk
      · rcases List.mem_cons.mp hf' with rfl | hf''
        · exact absurd hf hfs
        · exact Or.inr ⟨f', hf'', hfp, hfs⟩
    · have hman : ¬ ((_is_manifest_path f.path || _is_within_ingest f.path) = true) := by
        intro hx; exact hf (Or.inl hx)
      have hsup : _is_supported_media f.path = true := by
        by_contra hx
        exact hf (Or.inr (by simpa using hx))
      refine ih _ ?_
      intro g hg
      simp only [relocateStep, hman, if_false, hsup, Bool.not_true,
        Bool.false_eq_true, List.mem_append] at hg
      rcases hg with hg | hg
      · have hg' := List.mem_filter.mp hg
        rcases h g hg'.1 with hk | ⟨f', hf', hfp, hfs⟩
        · exact Or.inl hk
        · rcases List.mem_cons.mp hf' with rfl | hf''
          · exact absurd (by simpa using hg'.2) (by simp [hfp])
          · exact Or.inr ⟨f', hf'', hfp, hfs⟩
      · rcases List.mem_singleton.mp hg with rfl
        refine Or.inl (Or.inl ?_)
        have := dest_within (acc.1.map (·.path)) f.path (sup_ne_nil _ hsup)
        simp [this]

theorem relocate_classified (disk : Disk) :
    ∀ g ∈ (_relocate_misplaced_media disk).1, relocSkip g.path := by
  refine relocateFold_classified disk (disk, 0) ?_
  intro g hg
  by_cases h : relocSkip g.path
  · exact Or.inl h
  · exact Or.inr ⟨g, hg, rfl, h⟩

theorem relocate_clean (disk : Disk) (h : ∀ g ∈ disk, relocSkip g.path) :
    _relocate_misplaced_media disk = (disk, 0) :=
  relocateFold_skip disk (disk, 0) h


theorem remove_entries_files (index : Index) (paths : List PathParts) :
    (remove_entries index paths).files =
      index.files.filter (fun e => e.relative_path ∉ paths) := by
  rw [remove_entries]
  split <;> rfl

theorem map_rel_filter_not_mem (files : List FileEntry)
    (missing : List PathParts) :
    ((files.filter (fun e => e.relative_path ∉ missing)).map (·.relative_path)) =
      (files.map (·.relative_path)).filter (fun p => p ∉ missing) := by
  induction files with
  | nil => rfl
  | cons e rest ih =>
    by_cases h : e.relative_path ∈ missing
    · simp [List.filter_cons, h]
      simpa using ih
    · simp [List.filter_cons, h]
      simpa using ih

theorem reindex_relocated (env : Env) (st : PState) (nv : Bool) :
    (reindex_project env st nv).2.relocated =
      (_relocate_misplaced_media st.disk).2 := by
  simp only [reindex_project]

theorem reindex_indexed (env : Env) (st : PState) (nv : Bool) :
    (reindex_project env st nv).2.indexed =
      ((((_relocate_misplaced_media st.disk).1.filter
          (fun f => _is_within_ingest f.path)).filter
        (fun f => _is_supported_media f.path ∧
          f.path ∉ st.index.files.map (·.relative_path))).length) := by
  simp only [reindex_project]
  rw [scanFold_new_count]
  simp

theorem reindex_removed (env : Env) (st : PState) (nv : Bool) :
    (reindex_project env st nv).2.removed =
      (missingPaths (st.index.files.map (·.relative_path))
        ((((_relocate_misplaced_media st.disk).1.filter
            (fun f => _is_within_ingest f.path)).filter
          (fun f => _is_supported_media f.path)).map (·.path))).length := by
  simp only [reindex_project]
  rw [scanFold_seen]
  simp

theorem reindex_final_disk_paths (env : Env) (st : PState) (nv : Bool) :
    ((reindex_project env st nv).1.disk.map (·.path)) =
      (_relocate_misplaced_media st.disk).1.map (·.path) := by
  simp only [reindex_project]
  split
  · rw [scanFold_disk_paths]
  · rw [scanFold_disk_paths]

theorem reindex_disk_classified (env : Env) (st : PState) (nv : Bool) :
    ∀ p ∈ (reindex_project env st nv).1.disk.map (·.path), relocSkip p := by
  rw [reindex_final_disk_paths]
  intro p hp
  obtain ⟨g, hg, rfl⟩ := List.mem_map.mp hp
  exact relocate_classified _ g hg

theorem reindex_index_paths (env : Env) (st : PState) (nv : Bool) :
    ((reindex_project env st nv).1.index.files.map (·.relative_path)) =
      (let ep := st.index.files.map (·.relative_path)
      let scanFiles := (_relocate_misplaced_media st.disk).1.filter
        (fun f => _is_within_ingest f.path)
      let foldPaths := ep ++ ((scanFiles.filter
        (fun f => _is_supported_media f.path ∧ f.path ∉ ep)).map (·.path))
      let seen := ((scanFiles.filter
        (fun f => _is_supported_media f.path)).map (·.path))
      let missing := missingPaths ep seen
      if missing ≠ [] then foldPaths.filter (fun p => p ∉ missing)
      else foldPaths) := by
  simp only [reindex_project, scanFold_seen, List.nil_append]
  split
  · rw [remove_entries_files, map_rel_filter_not_mem, scanFold_index_paths]
  · rw [scanFold_index_paths]

/-- Every entry of the index left by a pass points at a supported media
path inside the ingest tree that exists on disk. -/
theorem reindex_entry_props (env : Env) (st : PState) (nv : Bool) :
    ∀ p ∈ (reindex_project env st nv).1.index.files.map (·.relative_path),
      _is_supported_media p = true ∧ _is_within_ingest p = true ∧
        p ∈ (reindex_project env st nv).1.disk.map (·.path) := by
  rw [reindex_index_paths, reindex_final_disk_paths]
  intro p hp
  simp only at hp
  have hseen :
      ∀ q ∈ ((((_relocate_misplaced_media st.disk).1.filter
          (fun f => _is_within_ingest f.path)).filter
        (fun f => _is_supported_media f.path)).map (·.path)),
        _is_supported_media q = true ∧ _is_within_ingest q = true ∧
          q ∈ (_relocate_misplaced_media st.disk).1.map (·.path) := by
    intro q hq
    obtain ⟨g, hg, rfl⟩ := List.mem_map.mp hq
    have hg1 := List.mem_filter.mp hg
    have hg2 := List.mem_filter.mp hg1.1
    exact ⟨by simpa using hg1.2, by simpa using hg2.2,
      List.mem_map_of_mem _ hg2.1⟩
  have happend :
      ∀ q ∈ ((((_relocate_misplaced_media st.disk).1.filter
          (fun f => _is_within_ingest f.path)).filter
        (fun f => _is_supported_media f.path ∧
          f.path ∉ st.index.files.map (·.relative_path))).map (·.path)),
        _is_supported_media q = true ∧ _is_within_ingest q = true ∧
          q ∈ (_relocate_misplaced_media st.disk).1.map (·.path) := by
    intro q hq
    obtain ⟨g, hg, rfl⟩ := List.mem_map.mp hq
    have hg1 := List.mem_filter.mp hg
    have hg2 := List.mem_filter.mp hg1.1
    have hsup : _is_supported_media g.path = true := by
      have := hg1.2
      simp only [decide_eq_true_eq] at this
      exact this.1
    exact ⟨hsup, by simpa using hg2.2, List.mem_map_of_mem _ hg2.1⟩
  have hep :
      ∀ q ∈ st.index.files.map (·.relative_path),
        (q ∉ missingPaths (st.index.files.map (·.relative_path))
          ((((_relocate_misplaced_media st.disk).1.filter
              (fun f => _is_within_ingest f.path)).filter
            (fun f => _is_supported_media f.path)).map (·.path))) →
        _is_supported_media q = true ∧ _is_within_ingest q = true ∧
          q ∈ (_relocate_misplaced_media st.disk).1.map (·.path) := by
    intro q hq hqm
    rw [missingPaths] at hqm
    have hqd : q ∈ (st.index.files.map (·.relative_path)).dedup :=
      List.mem_dedup.mpr hq
    have hpred : ¬ (q ∉ ((((_relocate_misplaced_media st.disk).1.filter
          (fun f => _is_within_ingest f.path)).filter
        (fun f => _is_supported_media f.path)).map (·.path)) ∨
        (q ≠ [] ∧ !_is_supported_media q = true)) := by
      intro hx
      exact hqm (List.mem_filter.mpr ⟨hqd, by simpa using hx⟩)
    push_neg at hpred
    exact hseen q hpred.1
  split at hp
  · have hp' := List.mem_filter.mp hp
    have hp2 : p ∉ missingPaths (st.index.files.map (·.relative_path))
        ((((_relocate_misplaced_media st.disk).1.filter
            (fun f => _is_within_ingest f.path)).filter
          (fun f => _is_supported_media f.path)).map (·.path)) := by
      simpa using hp'.2
    rcases List.mem_append.mp hp'.1 with hcase | hcase
    · exact hep p hcase hp2
    · exact happend p hcase
  · rename_i hmiss
    have hmiss' := not_ne_iff.mp hmiss
    rcases List.mem_append.mp hp with hcase | hcase
    · exact hep p hcase (by rw [hmiss']; simp)
    · exact happend p hcase

/-- Every file on disk after a pass that sits inside the ingest tree and
has a supported extension is present in the index the pass left behind. -/
theorem reindex_disk_indexed (env : Env) (st : PState) (nv : Bool) :
    ∀ p ∈ (reindex_project env st nv).1.disk.map (·.path),
      _is_within_ingest p = true → _is_supported_media p = true →
        p ∈ (reindex_project env st nv).1.index.files.map (·.relative_path) := by
  rw [reindex_final_disk_paths, reindex_index_paths]
  intro p hp hwithin hsup
  simp only
  obtain ⟨g, hg, rfl⟩ := List.mem_map.mp hp
  have hscan : g ∈ (_relocate_misplaced_media st.disk).1.filter
      (fun f => _is_within_ingest f.path) :=
    List.mem_filter.mpr ⟨hg, hwithin⟩
  have hseen : g.path ∈ ((((_relocate_misplaced_media st.disk).1.filter
      (fun f => _is_within_ingest f.path)).filter
        (fun f => _is_supported_media f.path)).map (·.path)) :=
    List.mem_map_of_mem _ (List.mem_filter.mpr ⟨hscan, hsup⟩)
  have hnotmiss : g.path ∉ missingPaths (st.index.files.map (·.relative_path))
      ((((_relocate_misplaced_media st.disk).1.filter
        (fun f => _is_within_ingest f.path)).filter
          (fun f => _is_supported_media f.path)).map (·.path)) := by
    intro hx
    rw [missingPaths] at hx
    have hx' := List.mem_filter.mp hx
    have hx2 := hx'.2
    simp only [decide_eq_true_eq] at hx2
    rcases hx2 with hns | ⟨_, hb⟩
    · exact hns hseen
    · rw [hsup] at hb
      exact absurd hb (by simp)
  have hfold : g.path ∈ (st.index.files.map (·.relative_path)) ++
      ((((_relocate_misplaced_media st.disk).1.filter
        (fun f => _is_within_ingest f.path)).filter
          (fun f => _is_supported_media f.path ∧
            f.path ∉ st.index.files.map (·.relative_path))).map (·.path)) := by
    by_cases hin : g.path ∈ st.index.files.map (·.relative_path)
    · exact List.mem_append.mpr (Or.inl hin)
    · refine List.mem_append.mpr (Or.inr ?_)
      exact List.mem_map_of_mem _
        (List.mem_filter.mpr ⟨hscan, by simp [hsup, hin]⟩)
  split
  · exact List.mem_filter.mpr ⟨hfold, by simpa using hnotmiss⟩
  · exact hfold

/-- C1: running reindex_project twice with no intervening filesystem
change yields indexed = 0, removed = 0 and relocated = 0 on the second
run (for any environment and normalization flag on the second run). -/
theorem reindex_project_idempotent (env env2 : Env) (st : PState)
    (nv nv2 : Bool) :
    (reindex_project env2 (reindex_project env st nv).1 nv2).2.indexed = 0 ∧
      (reindex_project env2 (reindex_project env st nv).1 nv2).2.removed = 0 ∧
      (reindex_project env2 (reindex_project env st nv).1 nv2).2.relocated
        = 0 := by
  have hclean : ∀ g ∈ (reindex_project env st nv).1.disk, relocSkip g.path :=
    fun g hg => reindex_disk_classified env st nv g.path
      (List.mem_map_of_mem _ hg)
  have hreloc : _relocate_misplaced_media (reindex_project env st nv).1.disk
      = ((reindex_project env st nv).1.disk, 0) :=
    relocate_clean _ hclean
  refine ⟨?_, ?_, ?_⟩
  · rw [reindex_indexed, hreloc]
    rw [List.length_eq_zero, List.filter_eq_nil_iff]
    intro g hg
    have hg1 := List.mem_filter.mp hg
    simp only [decide_eq_true_eq, not_and, not_not]
    intro hsup
    exact reindex_disk_indexed env st nv g.path
      (List.mem_map_of_mem _ hg1.1) (by simpa using hg1.2) hsup
  · rw [reindex_removed, hreloc]
    rw [List.length_eq_zero, missingPaths, List.filter_eq_nil_iff]
    intro p hp
    have hp' : p ∈ (reindex_project env st nv).1.index.files.map
        (·.relative_path) := List.mem_dedup.mp hp
    obtain ⟨hsup, hwithin, hdisk⟩ := reindex_entry_props env st nv p hp'
    obtain ⟨g, hg, rfl⟩ := List.mem_map.mp hdisk
    simp only [decide_eq_true_eq, not_or, not_and, not_not]
    constructor
    · exact List.mem_map_of_mem _ (List.mem_filter.mpr
        ⟨List.mem_filter.mpr ⟨hg, hwithin⟩, hsup⟩)
    · intro _
      simp [hsup]
  · rw [reindex_relocated, hreloc]



/-- An environment in which every reindex-level `ffprobe_video` call raises
`OrientationError` (and the rewrite, were it reached, would fail too). -/
def probeFailEnv : Env :=
  { hash := fun c => String.mk [digCh c]
    sizeOf := fun c => c + 100
    probeRot := fun _ => none
    normf := fun _ => .failed
    now := "T" }

/-- A fresh project with a single supported video inside the ingest tree. -/
def probeFailState : PState :=
  { disk := [⟨["ingest", "originals", "clip.mov"], 1⟩]
    index := ⟨[], ⟨0, 0, 0⟩⟩, manifest := [], sidecars := [] }

/-- C5 counterexample: a video file whose reindex-level rotation probe
fails (`ffprobe_video` raises `OrientationError`) is indexed, but the
probe failure is NOT counted in `normalization_failed`:
`_maybe_normalize_for_reindex` returns `None` on a probe error
(`reindex.py:168-170`), and only `False` increments the counter. -/
theorem probe_failure_not_counted :
    _is_video_media ["ingest", "originals", "clip.mov"] = true ∧
      probeFailEnv.probeRot 1 = none ∧
      (reindex_project probeFailEnv probeFailState true).2.normalization_failed
        = 0 ∧
      (reindex_project probeFailEnv probeFailState true).2.indexed = 1 ∧
      ((reindex_project probeFailEnv probeFailState true).1.index.files.map
        (·.relative_path)) = [["ingest", "originals", "clip.mov"]] := by
  decide

/-- C5 (amended): per-file normalization outcomes never abort a pass; a
probe failure is absorbed as "no normalization needed" and leaves the
bytes intact (so it is not counted); `normalization_failed` counts exactly
the scanned supported files whose normalization rewrite was attempted and
failed; a failed rewrite leaves the original bytes, which are what gets
hashed; and every supported file inside the ingest tree is still indexed. -/
theorem reindex_normalization_failure_policy (env : Env) (st : PState) :
    (∀ f : DiskFile, env.probeRot f.content = none →
        normResult env true f = (none, f.content)) ∧
      (∀ f : DiskFile, (normResult env true f).1 = some false →
        (normResult env true f).2 = f.content) ∧
      ((reindex_project env st true).2.normalization_failed =
        (((_relocate_misplaced_media st.disk).1.filter
            (fun f => _is_within_ingest f.path)).filter
          (fun f => _is_supported_media f.path ∧
            (normResult env true f).1 = some false)).length) ∧
      (∀ p ∈ (reindex_project env st true).1.disk.map (·.path),
        _is_within_ingest p = true → _is_supported_media p = true →
          p ∈ (reindex_project env st true).1.index.files.map
            (·.relative_path)) := by
  refine ⟨?_, ?_, ?_, reindex_disk_indexed env st true⟩
  · intro f h
    by_cases hv : _is_video_media f.path <;>
      simp [normResult, _maybe_normalize_for_reindex, hv, h]
  · intro f h
    by_cases hv : _is_video_media f.path
    · rcases hp : env.probeRot f.content with _ | r
      · simp [normResult, _maybe_normalize_for_reindex, hv, hp] at h
      · by_cases hr : r ∈ ([90, 180, 270] : List Int)
        · rcases hn : env.normf f.content with c' | _ | _ <;>
            simp_all [normResult, _maybe_normalize_for_reindex]
        · simp [normResult, _maybe_normalize_for_reindex, hv, hp, hr]
    · simp [normResult, hv]
  · simp only [reindex_project]
    rw [scanFold_normalization_failed]
    simp



/-- An index holding two entries with the same `relative_path`. -/
def dupIndex : Index :=
  ⟨[⟨["ingest", "originals", "a.mov"], "h1", 1, "T"⟩,
    ⟨["ingest", "originals", "a.mov"], "h2", 2, "T"⟩], ⟨2, 0, 0⟩⟩

/-- C7 counterexample: `save_index` is a bare `json.dump` of whatever dict
it is handed (`index.py:49-53`): an index in which two entries share a
`relative_path` is persisted verbatim, so no uniqueness invariant is
checked on save. -/
theorem save_index_persists_duplicate_paths :
    save_index dupIndex = dupIndex ∧
      ¬ ((save_index dupIndex).files.map (·.relative_path)).Nodup := by
  exact ⟨rfl, by decide⟩

theorem withCounter_inj (target : PathParts) (i j : Nat)
    (h : withCounter target i = withCounter target j) : i = j := by
  rw [withCounter, withCounter] at h
  have h2 := List.append_cancel_left h
  have h3 : nameStem (pathName target) ++ "_" ++ natToDec i
      ++ nameSuffix (pathName target) =
      nameStem (pathName target) ++ "_" ++ natToDec j
      ++ nameSuffix (pathName target) := by
    injection h2
  have h4 := congrArg String.data h3
  simp only [String.data_append] at h4
  have h5 := List.append_cancel_right h4
  have h6 := List.append_cancel_left h5
  have h7 : natToDec i = natToDec j := by
    rw [natToDec, natToDec]
    exact congrArg String.mk h6
  exact natToDec_injective h7

theorem dedupeFrom_not_mem (occ : List PathParts) (target : PathParts) :
    ∀ fuel k, (∃ i, i < fuel ∧ withCounter target (k + i) ∉ occ) →
      dedupeFrom occ target k fuel ∉ occ := by
  intro fuel
  induction fuel with
  | zero =>
    rintro k ⟨i, hi, _⟩
    exact absurd hi (Nat.not_lt_zero i)
  | succ n ih =>
    rintro k ⟨i, hi, hfree⟩
    simp only [dedupeFrom]
    by_cases h : withCounter target k ∈ occ
    · rw [if_pos h]
      apply ih (k + 1)
      have hiz : i ≠ 0 := by
        rintro rfl
        rw [Nat.add_zero] at hfree
        exact hfree h
      refine ⟨i - 1, by omega, ?_⟩
      have hk : k + 1 + (i - 1) = k + i := by omega
      rw [hk]
      exact hfree
    · rw [if_neg h]
      exact h

/-- The counter loop of `_dedupe_destination` always lands on a path not
currently occupied: the candidate names are pairwise distinct, so among
`occupied.length + 1` of them at least one is free. -/
theorem dedupe_destination_fresh (occ : List PathParts) (target : PathParts) :
    _dedupe_destination occ target ∉ occ := by
  rw [_dedupe_destination]
  split
  · apply dedupeFrom_not_mem
    by_contra hall
    push_neg at hall
    have hmap : ((List.range (occ.length + 1)).map
        (fun i => withCounter target (1 + i))).Nodup := by
      refine List.Nodup.map ?_ (List.nodup_range _)
      intro a b hab
      have := withCounter_inj target (1 + a) (1 + b) hab
      omega
    have hsub : ((List.range (occ.length + 1)).map
        (fun i => withCounter target (1 + i))) ⊆ occ := by
      intro x hx
      obtain ⟨i, hi, rfl⟩ := List.mem_map.mp hx
      exact hall i (List.mem_range.mp hi)
    have hle := (List.subperm_of_subset hmap hsub).length_le
    simp only [List.length_map, List.length_range] at hle
    omega
  · rename_i h
    exact h

theorem relocateStep_nodup (acc : Disk × Nat) (f : DiskFile)
    (h : (acc.1.map (·.path)).Nodup) :
    ((relocateStep acc f).1.map (·.path)).Nodup := by
  rw [relocateStep]
  split
  · exact h
  · split
    · exact h
    · simp only [List.map_append, List.map_cons, List.map_nil]
      have hsub : ((acc.1.filter (fun g => g.path ≠ f.path)).map (·.path)).Sublist
          (acc.1.map (·.path)) :=
        (List.filter_sublist _).map _
      refine List.Nodup.append (hsub.nodup h) (List.nodup_singleton _) ?_
      intro x hx hxd
      have hx1 : x ∈ acc.1.map (·.path) := hsub.mem hx
      have hxd' : x = _dedupe_destination (acc.1.map (·.path))
          (INGEST_DIR ++ f.path) := by simpa using hxd
      rw [hxd'] at hx1
      exact dedupe_destination_fresh _ _ hx1

theorem relocateFold_nodup (l : List DiskFile) (acc : Disk × Nat)
    (h : (acc.1.map (·.path)).Nodup) :
    (((l.foldl relocateStep acc).1.map (·.path))).Nodup := by
  induction l generalizing acc with
  | nil => exact h
  | cons f rest ih =>
    simp only [List.foldl_cons]
    exact ih _ (relocateStep_nodup acc f h)

/-- Relocation never creates two files at the same path. -/
theorem relocate_nodup (disk : Disk) (h : (disk.map (·.path)).Nodup) :
    (((_relocate_misplaced_media disk).1.map (·.path))).Nodup :=
  relocateFold_nodup disk (disk, 0) h

/-- C7 (amended): `save_index` itself checks nothing and persists the given
index verbatim; the uniqueness invariant is instead maintained by the
callers: a reindex pass started from an index with pairwise-distinct
relative_paths on a filesystem with pairwise-distinct paths leaves an
index whose relative_paths are again pairwise distinct. -/
theorem reindex_preserves_path_uniqueness (env : Env) (st : PState)
    (nv : Bool) (hidx : (st.index.files.map (·.relative_path)).Nodup)
    (hdisk : (st.disk.map (·.path)).Nodup) :
    ((reindex_project env st nv).1.index.files.map (·.relative_path)).Nodup := by
  rw [reindex_index_paths]
  simp only
  have hreloc := relocate_nodup st.disk hdisk
  have hsubapp : (((((_relocate_misplaced_media st.disk).1.filter
      (fun f => _is_within_ingest f.path)).filter
        (fun f => _is_supported_media f.path ∧
          f.path ∉ st.index.files.map (·.relative_path))).map (·.path))).Sublist
      ((_relocate_misplaced_media st.disk).1.map (·.path)) :=
    ((List.filter_sublist _).trans (List.filter_sublist _)).map _
  have happ := hsubapp.nodup hreloc
  have hdisj : (st.index.files.map (·.relative_path)).Disjoint
      ((((_relocate_misplaced_media st.disk).1.filter
        (fun f => _is_within_ingest f.path)).filter
          (fun f => _is_supported_media f.path ∧
            f.path ∉ st.index.files.map (·.relative_path))).map (·.path)) := by
    intro x hx hxapp
    obtain ⟨g, hg, rfl⟩ := List.mem_map.mp hxapp
    have hg1 := List.mem_filter.mp hg
    have := hg1.2
    simp only [decide_eq_true_eq] at this
    exact this.2 hx
  have hfold := List.Nodup.append hidx happ hdisj
  split
  · exact hfold.filter _
  · exact hfold

/-- A concrete environment for evaluating whole passes. -/
def sampleEnv : Env :=
  { hash := fun c => String.mk [digCh c]
    sizeOf := fun c => c + 100
    probeRot := fun _ => some 0
    normf := fun _ => .unchanged
    now := "T" }

/-- A small project: one indexed file still on disk and one stray. -/
def c7State : PState :=
  { disk := [⟨["ingest", "originals", "w0.mov"], 1⟩, ⟨["stray.mp4"], 3⟩]
    index := ⟨[⟨["ingest", "originals", "w0.mov"], String.mk [digCh 1], 101,
      "T"⟩], ⟨1, 0, 0⟩⟩
    manifest := [(String.mk [digCh 1], ["ingest", "originals", "w0.mov"])]
    sidecars := [] }

theorem reindex_preserves_path_uniqueness_witness :
    ((reindex_project sampleEnv c7State true).1.index.files.map
      (·.relative_path)).Nodup :=
  reindex_preserves_path_uniqueness sampleEnv c7State true (by decide)
    (by decide)



theorem assocFind_assocSet_ne {κ α : Type} [DecidableEq κ]
    (l : List (κ × α)) (k k' : κ) (v : α) (h : k' ≠ k) :
    assocFind (assocSet l k v) k' = assocFind l k' := by
  induction l with
  | nil => simp [assocSet, assocFind, Ne.symm h]
  | cons kv rest ih =>
    by_cases hk : kv.1 = k
    · have hkk' : kv.1 ≠ k' := by rw [hk]; exact Ne.symm h
      simp [assocSet, assocFind, hk, hkk', Ne.symm h]
    · by_cases hk' : kv.1 = k'
      · simp [assocSet, assocFind, hk, hk', h]
      · simp [assocSet, assocFind, hk, hk', ih]

theorem assocFind_none_of_not_mem {κ α : Type} [DecidableEq κ]
    (l : List (κ × α)) (k : κ) (h : k ∉ l.map Prod.fst) :
    assocFind l k = none := by
  induction l with
  | nil => rfl
  | cons kv rest ih =>
    simp only [List.map_cons, List.mem_cons] at h
    push_neg at h
    rw [assocFind, if_neg (fun hx => h.1 hx.symm)]
    exact ih h.2

theorem assocFind_isSome_of_mem {κ α : Type} [DecidableEq κ]
    (l : List (κ × α)) (k : κ) (h : k ∈ l.map Prod.fst) :
    (assocFind l k).isSome = true := by
  induction l with
  | nil => cases h
  | cons kv rest ih =>
    simp only [List.map_cons, List.mem_cons] at h
    by_cases hk : kv.1 = k
    · simp [assocFind, hk]
    · rw [assocFind, if_neg hk]
      exact ih (h.resolve_left (fun hx => hk hx.symm))

theorem assocFind_append_of_none {κ α : Type} [DecidableEq κ]
    (l l' : List (κ × α)) (k : κ) (h : assocFind l k = none) :
    assocFind (l ++ l') k = assocFind l' k := by
  induction l with
  | nil => rfl
  | cons kv rest ih =>
    rw [assocFind] at h
    by_cases hk : kv.1 = k
    · rw [if_pos hk] at h; cases h
    · rw [if_neg hk] at h
      rw [List.cons_append, assocFind, if_neg hk]
      exact ih h

theorem assocFind_append_of_some {κ α : Type} [DecidableEq κ]
    (l l' : List (κ × α)) (k : κ) (v : α) (h : assocFind l k = some v) :
    assocFind (l ++ l') k = some v := by
  induction l with
  | nil => cases h
  | cons kv rest ih =>
    rw [assocFind] at h
    by_cases hk : kv.1 = k
    · rw [if_pos hk] at h
      rw [List.cons_append, assocFind, if_pos hk]
      exact h
    · rw [if_neg hk] at h
      rw [List.cons_append, assocFind, if_neg hk]
      exact ih h

theorem assocFind_assocErase_self {κ α : Type} [DecidableEq κ]
    (l : List (κ × α)) (k : κ) : assocFind (assocErase l k) k = none := by
  apply assocFind_none_of_not_mem
  intro h
  obtain ⟨kv, hkv, hk⟩ := List.mem_map.mp h
  have hf := List.mem_filter.mp hkv
  have : kv.1 ≠ k := by simpa using hf.2
  exact this hk

/-- Deleting a key's record never disturbs lookups of other keys. -/
theorem remove_file_record_find_ne (db : Manifest) (sha : String)
    (rel : PathParts) (k : String) (h : k ≠ sha) :
    assocFind (remove_file_record db sha rel) k = assocFind db k := by
  induction db with
  | nil => rfl
  | cons kv rest ih =>
    rw [remove_file_record] at ih ⊢
    rw [List.filter_cons]
    by_cases hd : kv.1 = sha ∧ kv.2 = rel
    · have hkk : kv.1 ≠ k := by rw [hd.1]; exact Ne.symm h
      rw [if_neg (by simp [hd.1, hd.2])]
      rw [ih, assocFind, if_neg hkk]
    · rw [if_pos (by simp [hd])]
      by_cases hk : kv.1 = k
      · rw [assocFind, if_pos hk, assocFind, if_pos hk]
      · rw [assocFind, if_neg hk, assocFind, if_neg hk]
        exact ih

/-- With duplicate-free keys (the table's PRIMARY KEY), deleting the
record a hash points at leaves no record for that hash. -/
theorem remove_file_record_find_self (db : Manifest) (sha : String)
    (rel : PathParts) (hwf : (db.map Prod.fst).Nodup)
    (h : assocFind db sha = some rel) :
    assocFind (remove_file_record db sha rel) sha = none := by
  induction db with
  | nil => rfl
  | cons kv rest ih =>
    simp only [List.map_cons, List.nodup_cons] at hwf
    by_cases hk : kv.1 = sha
    · rw [assocFind, if_pos hk] at h
      have hv : kv.2 = rel := by injection h
      rw [remove_file_record, List.filter_cons]
      rw [if_neg (by simp [hk, hv])]
      apply assocFind_none_of_not_mem
      intro hmem
      obtain ⟨kv', hkv', hkeq⟩ := List.mem_map.mp hmem
      have hsub := (List.filter_sublist rest).mem hkv'
      refine (hk ▸ hwf.1) ?_
      exact List.mem_map.mpr ⟨kv', hsub, hkeq⟩
    · rw [assocFind, if_neg hk] at h
      rw [remove_file_record, List.filter_cons]
      rw [if_pos (by simp [hk])]
      rw [assocFind, if_neg hk]
      have := ih hwf.2 h
      rw [remove_file_record] at this
      exact this

theorem record_file_hash_none (db : Manifest) (sha : String)
    (rel : PathParts) (h : assocFind db sha = none) :
    record_file_hash db sha rel = (none, db ++ [(sha, rel)]) := by
  rw [record_file_hash, h]

/-- `ensure_metadata` touches only the sidecar stored under its own hash. -/
theorem ensure_metadata_find_ne (store : SidecarStore) (rel : PathParts)
    (sha : String) (fp : PathParts) (szf : Content → Nat) (c : Content)
    (src mth : String) (rid : Option String) (now : String) (k : String)
    (h : k ≠ sha) :
    assocFind (ensure_metadata store rel sha fp szf c src mth rid now) k =
      assocFind store k := by
  rw [ensure_metadata]
  cases hfind : assocFind store sha with
  | none => exact assocFind_assocSet_ne store sha k _ h
  | some payload =>
    simp only
    split
    · exact assocFind_assocSet_ne store sha k _ h
    · rfl

/-- A project where `dup-a.mov`'s bytes changed so that its fresh hash
equals `dup-b.mov`'s already-recorded hash, while its index entry still
stores the old hash. -/
def c4State : PState :=
  { disk := [⟨["ingest", "originals", "dup-a.mov"], 5⟩,
             ⟨["ingest", "originals", "dup-b.mov"], 5⟩]
    index := ⟨[⟨["ingest", "originals", "dup-a.mov"], String.mk [digCh 7],
        107, "T"⟩,
      ⟨["ingest", "originals", "dup-b.mov"], String.mk [digCh 5], 105, "T"⟩],
      ⟨2, 0, 0⟩⟩
    manifest := [(String.mk [digCh 7], ["ingest", "originals", "dup-a.mov"]),
      (String.mk [digCh 5], ["ingest", "originals", "dup-b.mov"])]
    sidecars := [(String.mk [digCh 7],
        build_metadata_payload ["ingest", "originals", "dup-a.mov"]
          (String.mk [digCh 7]) ["ingest", "originals", "dup-a.mov"]
          (fun c => c + 100) 7 "reindex" "filesystem_scan" none "T"),
      (String.mk [digCh 5],
        build_metadata_payload ["ingest", "originals", "dup-b.mov"]
          (String.mk [digCh 5]) ["ingest", "originals", "dup-b.mov"]
          (fun c => c + 100) 5 "reindex" "filesystem_scan" none "T")] }

/-- C4 counterexample: when the changed file's new content duplicates an
already-recorded hash, `reindex_project` hits
`if duplicate and rel_path in existing_paths: continue` (`reindex.py:94-95`)
before `update_file_entry`: the entry keeps the stale old hash, and the old
hash's sidecar survives although no file on disk has that hash any more. -/
theorem changed_hash_duplicate_skips_update :
    sampleEnv.hash 5 ≠ String.mk [digCh 7] ∧
      ((reindex_project sampleEnv c4State true).1.index.files.map
        (fun e => (e.relative_path, e.sha256))) =
        [(["ingest", "originals", "dup-a.mov"], String.mk [digCh 7]),
         (["ingest", "originals", "dup-b.mov"], String.mk [digCh 5])] ∧
      (assocFind (reindex_project sampleEnv c4State true).1.sidecars
        (String.mk [digCh 7])).isSome = true := by
  decide

/-- C4 (amended): for an already-indexed path whose stored hash differs
from the fresh hash, when the fresh hash is NOT already recorded in the
manifest, the scan updates the entry in place to the new hash, removes the
old hash's manifest record, records the new hash at this path, and — at
refcount zero — deletes the old hash's sidecar (keeping it when references
remain); no other file on disk (in particular no derived thumbnail) is
deleted. When the fresh hash duplicates an already-recorded one the whole
update is skipped (see the counterexample). -/
theorem changed_hash_nonduplicate_update (env : Env) (nv : Bool)
    (ee : List (PathParts × FileEntry)) (ep : List PathParts) (s : ScanState)
    (f : DiskFile) (e : FileEntry)
    (hee : assocFind ee f.path = some e)
    (hep : f.path ∈ ep)
    (he : e.sha256 ≠ "")
    (hsha : e.sha256 ≠ env.hash (normResult env nv f).2)
    (hdup : assocFind s.st.manifest (env.hash (normResult env nv f).2) = none)
    (hman : assocFind s.st.manifest e.sha256 = some f.path)
    (hwf : (s.st.manifest.map Prod.fst).Nodup) :
    (scanStepSup env nv ee ep s f).st.index.files =
      updateFirst s.st.index.files f.path (env.hash (normResult env nv f).2)
        (env.sizeOf (normResult env nv f).2) env.now ∧
      assocFind (scanStepSup env nv ee ep s f).st.manifest e.sha256 = none ∧
      assocFind (scanStepSup env nv ee ep s f).st.manifest
        (env.hash (normResult env nv f).2) = some f.path ∧
      ((_decrement_sha_refcount s.refc e.sha256).1 = false →
        assocFind (scanStepSup env nv ee ep s f).st.sidecars e.sha256 = none) ∧
      ((_decrement_sha_refcount s.refc e.sha256).1 = true →
        assocFind (scanStepSup env nv ee ep s f).st.sidecars e.sha256 =
          assocFind s.st.sidecars e.sha256) ∧
      ((scanStepSup env nv ee ep s f).st.disk.map (·.path)) =
        s.st.disk.map (·.path) := by
  have hrec := record_file_hash_none s.st.manifest
    (env.hash (normResult env nv f).2) f.path hdup
  have hwf2 : ((s.st.manifest ++ [(env.hash (normResult env nv f).2,
      f.path)]).map Prod.fst).Nodup := by
    rw [List.map_append]
    refine List.Nodup.append hwf (by simp) ?_
    intro x hx hx2
    simp only [List.map_cons, List.map_nil, List.mem_singleton] at hx2
    subst hx2
    have := assocFind_isSome_of_mem s.st.manifest _ hx
    rw [hdup] at this
    cases this
  constructor
  · simp only [scanStepSup, hrec, hee, update_file_entry, save_index]
    simp [hep, he, hsha]
  constructor
  · simp only [scanStepSup, hrec, hee]
    simp only [hep, he, hsha, Option.isSome_none, Bool.false_eq_true,
      false_and, if_false, if_true, ne_eq, not_false_eq_true, and_self,
      if_pos]
    exact remove_file_record_find_self _ _ _ hwf2
      (assocFind_append_of_some _ _ _ _ hman)
  constructor
  · simp only [scanStepSup, hrec, hee]
    simp only [hep, he, hsha, Option.isSome_none, Bool.false_eq_true,
      false_and, if_false, if_true, ne_eq, not_false_eq_true, and_self,
      if_pos]
    rw [remove_file_record_find_ne _ _ _ _ (Ne.symm hsha)]
    rw [assocFind_append_of_none _ _ _ hdup]
    simp [assocFind]
  constructor
  · intro hdec
    simp only [scanStepSup, hrec, hee]
    simp only [hep, he, hsha, hdec, Option.isSome_none, Bool.false_eq_true,
      false_and, if_false, if_true, ne_eq, not_false_eq_true, and_self,
      if_pos, Bool.not_false]
    exact assocFind_assocErase_self _ _
  constructor
  · intro hdec
    simp only [scanStepSup, hrec, hee]
    simp only [hep, he, hsha, hdec, Option.isSome_none, Bool.false_eq_true,
      false_and, if_false, if_true, ne_eq, not_false_eq_true, and_self,
      if_pos, Bool.not_true]
    exact ensure_metadata_find_ne _ _ _ _ _ _ _ _ _ _ _ hsha
  · exact scanStepSup_disk_paths env nv ee ep s f

/-- One changed file whose fresh hash is new to the manifest. -/
def c4f : DiskFile := ⟨["ingest", "originals", "w.mov"], 5⟩

def c4e : FileEntry :=
  ⟨["ingest", "originals", "w.mov"], String.mk [digCh 7], 107, "T"⟩

def c4s : ScanState :=
  { st := { disk := [c4f]
            index := ⟨[c4e], ⟨1, 0, 0⟩⟩
            manifest := [(String.mk [digCh 7], ["ingest", "originals",
              "w.mov"])]
            sidecars := [(String.mk [digCh 7],
              build_metadata_payload ["ingest", "originals", "w.mov"]
                (String.mk [digCh 7]) ["ingest", "originals", "w.mov"]
                (fun c => c + 100) 7 "reindex" "filesystem_scan" none "T")] }
    refc := [(String.mk [digCh 7], 1)]
    seen := [], new_count := 0, skipped_unsupported := 0, normalized := 0
    normalization_failed := 0 }

/-- Witness for the amended C4 theorem at one concrete changed file. -/
theorem changed_hash_nonduplicate_update_witness :
    (scanStepSup sampleEnv true [(c4f.path, c4e)] [c4f.path] c4s
        c4f).st.index.files =
      updateFirst c4s.st.index.files c4f.path
        (sampleEnv.hash (normResult sampleEnv true c4f).2)
        (sampleEnv.sizeOf (normResult sampleEnv true c4f).2) sampleEnv.now ∧
      assocFind (scanStepSup sampleEnv true [(c4f.path, c4e)] [c4f.path] c4s
        c4f).st.manifest c4e.sha256 = none ∧
      assocFind (scanStepSup sampleEnv true [(c4f.path, c4e)] [c4f.path] c4s
        c4f).st.manifest
        (sampleEnv.hash (normResult sampleEnv true c4f).2) = some c4f.path ∧
      ((_decrement_sha_refcount c4s.refc c4e.sha256).1 = false →
        assocFind (scanStepSup sampleEnv true [(c4f.path, c4e)] [c4f.path]
          c4s c4f).st.sidecars c4e.sha256 = none) ∧
      ((_decrement_sha_refcount c4s.refc c4e.sha256).1 = true →
        assocFind (scanStepSup sampleEnv true [(c4f.path, c4e)] [c4f.path]
          c4s c4f).st.sidecars c4e.sha256 =
            assocFind c4s.st.sidecars c4e.sha256) ∧
      ((scanStepSup sampleEnv true [(c4f.path, c4e)] [c4f.path] c4s
        c4f).st.disk.map (·.path)) = c4s.st.disk.map (·.path) :=
  changed_hash_nonduplicate_update sampleEnv true [(c4f.path, c4e)]
    [c4f.path] c4s c4f c4e (by decide) (by decide) (by decide) (by decide)
    (by decide) (by decide) (by decide)



/-- A project whose only indexed media file has disappeared, while its
derived thumbnail still sits on disk in the cache area. -/
def c6State : PState :=
  { disk := [⟨["ingest", "originals", "thumbnails", "h7.jpg"], 9⟩]
    index := ⟨[⟨["ingest", "originals", "gone.mov"], String.mk [digCh 7],
      107, "T"⟩], ⟨1, 0, 0⟩⟩
    manifest := [(String.mk [digCh 7], ["ingest", "originals", "gone.mov"])]
    sidecars := [(String.mk [digCh 7],
      build_metadata_payload ["ingest", "originals", "gone.mov"]
        (String.mk [digCh 7]) ["ingest", "originals", "gone.mov"]
        (fun c => c + 100) 7 "reindex" "filesystem_scan" none "T")] }

/-- C6 counterexample: removing the last FileEntry referencing a hash
deletes its sidecar, but the derived thumbnail is NOT deleted — nothing in
the pass touches cache artifacts (`remove_metadata`, `metadata.py:138-142`,
unlinks only `ingest/_metadata/<sha>.json`): the thumbnail file survives
the sweep. -/
theorem thumbnail_survives_last_reference_removal :
    (reindex_project sampleEnv c6State true).2.removed = 1 ∧
      assocFind (reindex_project sampleEnv c6State true).1.sidecars
        (String.mk [digCh 7]) = none ∧
      (reindex_project sampleEnv c6State true).1.disk =
        [⟨["ingest", "originals", "thumbnails", "h7.jpg"], 9⟩] := by
  decide

/-- C6 (amended): sweeping a disappeared path whose single index entry
references hash H decrements H's reference count; at the last reference
the sidecar for H is deleted, while with further references the sidecar
store is untouched; and no pass ever deletes a file from disk — derived
thumbnails survive (only relocation renames files). -/
theorem sweep_refcount_sidecar (dbSnap : String → Option PathParts)
    (files : List FileEntry) (db : Manifest) (sc : SidecarStore)
    (refc : List (String × Nat)) (m : PathParts) (e : FileEntry)
    (hfiles : files.filter (fun x => x.relative_path = m) = [e])
    (hsha : e.sha256 ≠ "") :
    (missingStep dbSnap files (db, sc, refc) m).2.2 =
      assocSet refc e.sha256 ((assocFind refc e.sha256).getD 0 - 1) ∧
      ((assocFind refc e.sha256).getD 0 ≤ 1 →
        assocFind (missingStep dbSnap files (db, sc, refc) m).2.1 e.sha256
          = none) ∧
      (2 ≤ (assocFind refc e.sha256).getD 0 →
        (missingStep dbSnap files (db, sc, refc) m).2.1 = sc) ∧
      (∀ (env : Env) (st : PState) (nv : Bool),
        ((reindex_project env st nv).1.disk.map (·.path)) =
          (_relocate_misplaced_media st.disk).1.map (·.path)) := by
  have hstep : missingStep dbSnap files (db, sc, refc) m =
      (if e.sha256 ≠ "" ∧ dbSnap e.sha256 = some m then
          remove_file_record db e.sha256 m
        else db,
       if !(_decrement_sha_refcount refc e.sha256).1 then
          remove_metadata sc e.sha256
        else sc,
       (_decrement_sha_refcount refc e.sha256).2) := by
    rw [missingStep, hfiles]
    simp only [List.foldl_cons, List.foldl_nil, sweepEntryStep]
    rw [if_pos hsha]
  refine ⟨?_, ?_, ?_, fun env st nv => reindex_final_disk_paths env st nv⟩
  · rw [hstep]
    simp only [_decrement_sha_refcount, if_neg (by simpa using hsha)]
  · intro hle
    rw [hstep]
    simp only [_decrement_sha_refcount, if_neg (by simpa using hsha)]
    have hz : (assocFind refc e.sha256).getD 0 - 1 = 0 := by omega
    rw [hz]
    simp only [gt_iff_lt, Nat.lt_irrefl]
    simp only [show decide (0 > 0) = false from rfl, Bool.not_false, if_true,
      remove_metadata]
    exact assocFind_assocErase_self _ _
  · intro hge
    rw [hstep]
    simp only [_decrement_sha_refcount, if_neg (by simpa using hsha)]
    have hpos : 0 < (assocFind refc e.sha256).getD 0 - 1 := by omega
    simp [hpos]

def c6e : FileEntry :=
  ⟨["ingest", "originals", "gone2.mov"], String.mk [digCh 7], 107, "T"⟩

def c6sc : SidecarStore :=
  [(String.mk [digCh 7],
    build_metadata_payload ["ingest", "originals", "gone2.mov"]
      (String.mk [digCh 7]) ["ingest", "originals", "gone2.mov"]
      (fun c => c + 100) 7 "reindex" "filesystem_scan" none "T")]

/-- Witness for the amended C6 theorem at one concrete disappeared entry
holding the last reference to its hash. -/
theorem sweep_refcount_sidecar_witness :
    (missingStep (fun _ => none) [c6e] ([], c6sc,
        [(String.mk [digCh 7], 1)]) c6e.relative_path).2.2 =
      assocSet [(String.mk [digCh 7], 1)] c6e.sha256
        ((assocFind [(String.mk [digCh 7], 1)] c6e.sha256).getD 0 - 1) ∧
      ((assocFind [(String.mk [digCh 7], 1)] c6e.sha256).getD 0 ≤ 1 →
        assocFind (missingStep (fun _ => none) [c6e] ([], c6sc,
          [(String.mk [digCh 7], 1)]) c6e.relative_path).2.1 c6e.sha256
          = none) ∧
      (2 ≤ (assocFind [(String.mk [digCh 7], 1)] c6e.sha256).getD 0 →
        (missingStep (fun _ => none) [c6e] ([], c6sc,
          [(String.mk [digCh 7], 1)]) c6e.relative_path).2.1 = c6sc) ∧
      (∀ (env : Env) (st : PState) (nv : Bool),
        ((reindex_project env st nv).1.disk.map (·.path)) =
          (_relocate_misplaced_media st.disk).1.map (·.path)) :=
  sweep_refcount_sidecar (fun _ => none) [c6e] [] c6sc
    [(String.mk [digCh 7], 1)] c6e.relative_path c6e (by decide) (by decide)



theorem record_file_hash_fst (db : Manifest) (sha : String)
    (rel : PathParts) : (record_file_hash db sha rel).1 = assocFind db sha := by
  rw [record_file_hash]
  cases assocFind db sha <;> rfl

theorem record_file_hash_snd (db : Manifest) (sha : String)
    (rel : PathParts) : (record_file_hash db sha rel).2 =
      if (assocFind db sha).isSome then db else db ++ [(sha, rel)] := by
  rw [record_file_hash]
  cases assocFind db sha <;> rfl

/-- The manifest written by one supported scan iteration, which is fixed
before the three-way index branch. -/
theorem scanStepSup_manifest (env : Env) (nv : Bool)
    (ee : List (PathParts × FileEntry)) (ep : List PathParts)
    (s : ScanState) (f : DiskFile) :
    (scanStepSup env nv ee ep s f).st.manifest =
      (match assocFind ee f.path with
       | some e =>
         if e.sha256 ≠ "" ∧ e.sha256 ≠ env.hash (normResult env nv f).2 then
           remove_file_record
             (record_file_hash s.st.manifest
               (env.hash (normResult env nv f).2) f.path).2 e.sha256 f.path
         else (record_file_hash s.st.manifest
           (env.hash (normResult env nv f).2) f.path).2
       | none => (record_file_hash s.st.manifest
           (env.hash (normResult env nv f).2) f.path).2) := by
  simp only [scanStepSup]
  split
  · rfl
  · split
    · split
      · split
        · split <;> rfl
        · rfl
      · rfl
    · rfl

/-- The index file list written by one supported scan iteration. -/
theorem scanStepSup_files (env : Env) (nv : Bool)
    (ee : List (PathParts × FileEntry)) (ep : List PathParts)
    (s : ScanState) (f : DiskFile) :
    (scanStepSup env nv ee ep s f).st.index.files =
      if (assocFind s.st.manifest (env.hash (normResult env nv f).2)).isSome
          ∧ f.path ∈ ep then s.st.index.files
      else if f.path ∈ ep then
        match assocFind ee f.path with
        | some e =>
          if e.sha256 ≠ env.hash (normResult env nv f).2 then
            updateFirst s.st.index.files f.path
              (env.hash (normResult env nv f).2)
              (env.sizeOf (normResult env nv f).2) env.now
          else s.st.index.files
        | none => s.st.index.files
      else s.st.index.files ++
        [⟨f.path, env.hash (normResult env nv f).2,
          env.sizeOf (normResult env nv f).2, env.now⟩] := by
  simp only [scanStepSup, record_file_hash_fst, update_file_entry,
    save_index, append_file_entry]
  by_cases hd : (assocFind s.st.manifest
      (env.hash (normResult env nv f).2)).isSome = true ∧ f.path ∈ ep
  · rw [if_pos hd, if_pos hd]
  · rw [if_neg hd, if_neg hd]
    by_cases hm : f.path ∈ ep
    · rw [if_pos hm, if_pos hm]
      cases hee : assocFind ee f.path with
      | none => rfl
      | some e =>
        simp only []
        by_cases hs : e.sha256 ≠ env.hash (normResult env nv f).2
        · rw [if_pos hs, if_pos hs]
          split <;> rfl
        · rw [if_neg hs, if_neg hs]
    · rw [if_neg hm, if_neg hm]

theorem updateFirst_mem_updated (files : List FileEntry) (rel : PathParts)
    (sha : String) (size : Nat) (stamp : String)
    (h : rel ∈ files.map (·.relative_path)) :
    ∃ e' ∈ updateFirst files rel sha size stamp,
      e'.relative_path = rel ∧ e'.sha256 = sha := by
  induction files with
  | nil => cases h
  | cons e rest ih =>
    rw [updateFirst]
    by_cases he : e.relative_path = rel
    · rw [if_pos he]
      exact ⟨_, List.mem_cons_self _ _, he, rfl⟩
    · rw [if_neg he]
      simp only [List.map_cons, List.mem_cons] at h
      obtain ⟨e', he', hp, hs⟩ := ih (h.resolve_left (fun hx => he hx.symm))
      exact ⟨e', List.mem_cons_of_mem _ he', hp, hs⟩

theorem updateFirst_mem_preserve (files : List FileEntry) (rel : PathParts)
    (sha : String) (size : Nat) (stamp : String) (e' : FileEntry)
    (hmem : e' ∈ files) (hne : e'.relative_path ≠ rel) :
    e' ∈ updateFirst files rel sha size stamp := by
  induction files with
  | nil => cases hmem
  | cons e rest ih =>
    rw [updateFirst]
    rcases List.mem_cons.mp hmem with rfl | hmem'
    · rw [if_neg hne]
      exact List.mem_cons_self _ _
    · by_cases he : e.relative_path = rel
      · rw [if_pos he]
        exact List.mem_cons_of_mem _ hmem'
      · rw [if_neg he]
        exact List.mem_cons_of_mem _ (ih hmem')

theorem updateFirst_mem_orig (files : List FileEntry) (rel : PathParts)
    (sha : String) (size : Nat) (stamp : String) (e' : FileEntry)
    (hmem : e' ∈ updateFirst files rel sha size stamp) :
    e' ∈ files ∨ e'.relative_path = rel := by
  induction files with
  | nil => cases hmem
  | cons e rest ih =>
    rw [updateFirst] at hmem
    by_cases he : e.relative_path = rel
    · rw [if_pos he] at hmem
      rcases List.mem_cons.mp hmem with rfl | hmem'
      · exact Or.inr he
      · exact Or.inl (List.mem_cons_of_mem _ hmem')
    · rw [if_neg he] at hmem
      rcases List.mem_cons.mp hmem with rfl | hmem'
      · exact Or.inl (List.mem_cons_self _ _)
      · rcases ih hmem' with hx | hx
        · exact Or.inl (List.mem_cons_of_mem _ hx)
        · exact Or.inr hx

theorem assocFind_assocSet_eq {κ α : Type} [DecidableEq κ]
    (l : List (κ × α)) (k : κ) (v : α) (p : κ) :
    assocFind (assocSet l k v) p = if k = p then some v else assocFind l p := by
  induction l with
  | nil =>
    by_cases hk : k = p <;> simp [assocSet, assocFind, hk]
  | cons kv rest ih =>
    by_cases hk : kv.1 = k
    · by_cases hp : k = p
      · simp [assocSet, assocFind, hk, hp]
      · have : kv.1 ≠ p := by rw [hk]; exact hp
        simp [assocSet, assocFind, hk, hp, this]
    · by_cases hp : kv.1 = p
      · have h1 : ¬ k = p := fun hx => hk (by rw [hp, hx])
        have h2 : ¬ p = k := fun hx => h1 hx.symm
        simp [assocSet, assocFind, hk, hp, h1, h2]
      · simp [assocSet, assocFind, hk, hp, ih]

theorem entryFold_find_mem (P : FileEntry → Prop) (l : List FileEntry)
    (hl : ∀ e ∈ l, P e) :
    ∀ (acc : List (PathParts × FileEntry)),
      (∀ p e, assocFind acc p = some e → P e ∧ e.relative_path = p) →
      ∀ p e, assocFind (l.foldl
          (fun acc e => assocSet acc e.relative_path e) acc) p = some e →
        P e ∧ e.relative_path = p := by
  induction l with
  | nil =>
    intro acc hacc p e h
    exact hacc p e h
  | cons f rest ih =>
    intro acc hacc p e h
    simp only [List.foldl_cons] at h
    refine ih (fun e he => hl e (List.mem_cons_of_mem _ he)) _ ?_ p e h
    intro q e' hq
    rw [assocFind_assocSet_eq] at hq
    by_cases hfp : f.relative_path = q
    · rw [if_pos hfp] at hq
      have hef : e' = f := by injection hq.symm
      rw [hef]
      exact ⟨hl f (List.mem_cons_self _ _), hfp⟩
    · rw [if_neg hfp] at hq
      exact hacc q e' hq

theorem lastEntryMap_find_mem (files : List FileEntry) (p : PathParts)
    (e : FileEntry) (h : assocFind (lastEntryMap files) p = some e) :
    e ∈ files ∧ e.relative_path = p := by
  refine entryFold_find_mem (· ∈ files) files (fun e he => he) [] ?_ p e h
  intro q e' hq
  cases hq

theorem entryFold_find_isSome (l : List FileEntry) :
    ∀ (acc : List (PathParts × FileEntry)) (p : PathParts),
      (p ∈ l.map (·.relative_path) ∨ (assocFind acc p).isSome = true) →
      (assocFind (l.foldl
        (fun acc e => assocSet acc e.relative_path e) acc) p).isSome
          = true := by
  induction l with
  | nil =>
    intro acc p h
    exact h.resolve_left (by simp)
  | cons f rest ih =>
    intro acc p h
    simp only [List.foldl_cons]
    refine ih _ p ?_
    simp only [List.map_cons, List.mem_cons] at h
    rcases h with (hp | hp) | hp
    · refine Or.inr ?_
      rw [assocFind_assocSet_eq, if_pos hp.symm]
      rfl
    · exact Or.inl hp
    · refine Or.inr ?_
      rw [assocFind_assocSet_eq]
      by_cases hfp : f.relative_path = p
      · rw [if_pos hfp]; rfl
      · rw [if_neg hfp]; exact hp

theorem lastEntryMap_isSome (files : List FileEntry) (p : PathParts)
    (h : p ∈ files.map (·.relative_path)) :
    (assocFind (lastEntryMap files) p).isSome = true :=
  entryFold_find_isSome files [] p (Or.inl h)

theorem assocFind_mem_nodup {κ α : Type} [DecidableEq κ]
    (l : List (κ × α)) (kv : κ × α) (hwf : (l.map Prod.fst).Nodup)
    (h : kv ∈ l) : assocFind l kv.1 = some kv.2 := by
  induction l with
  | nil => cases h
  | cons x rest ih =>
    simp only [List.map_cons, List.nodup_cons] at hwf
    rcases List.mem_cons.mp h with rfl | h'
    · rw [assocFind, if_pos rfl]
    · have hx : x.1 ≠ kv.1 := by
        intro hx
        exact hwf.1 (hx ▸ List.mem_map_of_mem Prod.fst h')
      rw [assocFind, if_neg hx]
      exact ih hwf.2 h'

/-- The dedup invariant's liveness half: every manifest record carries a
non-empty hash and points at the relative_path of a live index entry whose
hash is the record's key. -/
def manifestBacked (db : Manifest) (files : List FileEntry) : Prop :=
  ∀ kv ∈ db, kv.1 ≠ "" ∧
    ∃ e ∈ files, e.relative_path = kv.2 ∧ e.sha256 = kv.1

instance (db : Manifest) (files : List FileEntry) :
    Decidable (manifestBacked db files) := by
  unfold manifestBacked; infer_instance


theorem remove_file_record_sublist (db : Manifest) (sha : String)
    (rel : PathParts) : (remove_file_record db sha rel).Sublist db :=
  List.filter_sublist _

theorem entry_unique_at_path (files : List FileEntry)
    (hnod : (files.map (·.relative_path)).Nodup) (e1 e2 : FileEntry)
    (h1 : e1 ∈ files) (h2 : e2 ∈ files)
    (hp : e1.relative_path = e2.relative_path) : e1 = e2 :=
  List.inj_on_of_nodup_map hnod h1 h2 hp

/-- One supported scan iteration preserves the manifest invariant: unique
non-empty keys, every record backed by a live entry at its recorded path;
the index path list stays duplicate-free, entries at other paths survive,
and the path list either stays put or gains exactly the scanned path. -/
theorem scanStepSup_invariant (env : Env) (nv : Bool)
    (ee : List (PathParts × FileEntry)) (ep : List PathParts)
    (s : ScanState) (f : DiskFile)
    (hhash : ∀ c, env.hash c ≠ "")
    (hkeys : (s.st.manifest.map Prod.fst).Nodup)
    (hback : manifestBacked s.st.manifest s.st.index.files)
    (hnod : (s.st.index.files.map (·.relative_path)).Nodup)
    (hcorr : ∀ e, assocFind ee f.path = some e →
      ∃ e' ∈ s.st.index.files, e'.relative_path = f.path ∧
        e'.sha256 = e.sha256)
    (hcov : f.path ∈ ep → (assocFind ee f.path).isSome = true)
    (hnew : f.path ∉ ep → f.path ∉ s.st.index.files.map (·.relative_path)) :
    (((scanStepSup env nv ee ep s f).st.manifest.map Prod.fst).Nodup) ∧
      manifestBacked (scanStepSup env nv ee ep s f).st.manifest
        (scanStepSup env nv ee ep s f).st.index.files ∧
      (((scanStepSup env nv ee ep s f).st.index.files.map
        (·.relative_path)).Nodup) ∧
      (∀ e' ∈ s.st.index.files, e'.relative_path ≠ f.path →
        e' ∈ (scanStepSup env nv ee ep s f).st.index.files) ∧
      ((scanStepSup env nv ee ep s f).st.index.files.map (·.relative_path) =
          s.st.index.files.map (·.relative_path) ∨
        (scanStepSup env nv ee ep s f).st.index.files.map (·.relative_path) =
          s.st.index.files.map (·.relative_path) ++ [f.path]) := by
  rw [scanStepSup_manifest, scanStepSup_files, record_file_hash_snd]
  by_cases hdup : (assocFind s.st.manifest
      (env.hash (normResult env nv f).2)).isSome = true
  · rw [if_pos hdup]
    have hsub' : (match assocFind ee f.path with
        | some e =>
          if e.sha256 ≠ "" ∧ e.sha256 ≠ env.hash (normResult env nv f).2 then
            remove_file_record s.st.manifest e.sha256 f.path
          else s.st.manifest
        | none => s.st.manifest).Sublist s.st.manifest := by
      cases assocFind ee f.path with
      | none => exact List.Sublist.refl _
      | some e =>
        simp only []
        split
        · exact remove_file_record_sublist _ _ _
        · exact List.Sublist.refl _
    by_cases hm : f.path ∈ ep
    · rw [if_pos ⟨hdup, hm⟩]
      refine ⟨(hsub'.map _).nodup hkeys, ?_, hnod, fun e' he' _ => he',
        Or.inl rfl⟩
      intro kv hkv
      exact hback kv (hsub'.mem hkv)
    · rw [if_neg (fun hx => hm hx.2), if_neg hm]
      refine ⟨(hsub'.map _).nodup hkeys, ?_, ?_, ?_, ?_⟩
      · intro kv hkv
        obtain ⟨hne, e'', he''m, he''p, he''s⟩ := hback kv (hsub'.mem hkv)
        exact ⟨hne, e'', List.mem_append_left _ he''m, he''p, he''s⟩
      · rw [List.map_append]
        refine List.Nodup.append hnod (by simp) ?_
        intro x hx hx2
        simp only [List.map_cons, List.map_nil, List.mem_singleton] at hx2
        exact hnew hm (hx2 ▸ hx)
      · intro e' he' _
        exact List.mem_append_left _ he'
      · right
        rw [List.map_append]
        rfl
  · rw [if_neg hdup, if_neg (fun hx => hdup hx.1)]
    have hfresh : env.hash (normResult env nv f).2 ∉
        s.st.manifest.map Prod.fst := by
      intro hx
      exact hdup (assocFind_isSome_of_mem _ _ hx)
    have hkeys' : ((s.st.manifest ++ [(env.hash (normResult env nv f).2,
        f.path)]).map Prod.fst).Nodup := by
      rw [List.map_append]
      refine List.Nodup.append hkeys (by simp) ?_
      intro x hx hx2
      simp only [List.map_cons, List.map_nil, List.mem_singleton] at hx2
      exact hfresh (hx2 ▸ hx)
    have hmem_db' : ∀ kv, kv ∈ s.st.manifest ++
        [(env.hash (normResult env nv f).2, f.path)] →
        kv ∈ s.st.manifest ∨
          kv = (env.hash (normResult env nv f).2, f.path) := by
      intro kv hkv
      rcases List.mem_append.mp hkv with h | h
      · exact Or.inl h
      · exact Or.inr (List.mem_singleton.mp h)
    by_cases hm : f.path ∈ ep
    · rw [if_pos hm]
      cases hee : assocFind ee f.path with
      | none =>
        have := hcov hm
        rw [hee] at this
        cases this
      | some e =>
        simp only []
        obtain ⟨e', he'm, he'p, he's⟩ := hcorr e hee
        have hrelmem : f.path ∈ s.st.index.files.map (·.relative_path) :=
          he'p ▸ List.mem_map_of_mem _ he'm
        have hback_at : ∀ kv ∈ s.st.manifest, kv.2 = f.path →
            kv.1 = e.sha256 := by
          intro kv hkv hkv2
          obtain ⟨hne, e'', he''m, he''p, he''s⟩ := hback kv hkv
          have : e'' = e' := entry_unique_at_path _ hnod e'' e' he''m he'm
            (by rw [he''p, hkv2, he'p])
          rw [← he''s, this, he's]
        by_cases hs : e.sha256 = env.hash (normResult env nv f).2
        · have hsneg : ¬ e.sha256 ≠ env.hash (normResult env nv f).2 := by
            simpa using hs
          rw [if_neg hsneg, if_neg (fun hx => hsneg hx.2)]
          refine ⟨hkeys', ?_, hnod, fun e'' he'' _ => he'', Or.inl rfl⟩
          intro kv hkv
          rcases hmem_db' kv hkv with h | rfl
          · exact hback kv h
          · exact ⟨hhash _, e', he'm, he'p, hs ▸ he's⟩
        · have hspos : e.sha256 ≠ env.hash (normResult env nv f).2 := hs
          rw [if_pos hspos]
          have hfiles_goal : ∀ kv, (kv ∈ s.st.manifest ∨
              kv = (env.hash (normResult env nv f).2, f.path)) →
              ¬ (kv.1 = e.sha256 ∧ kv.2 = f.path) →
              kv.1 ≠ "" ∧ ∃ eu ∈ updateFirst s.st.index.files f.path
                (env.hash (normResult env nv f).2)
                (env.sizeOf (normResult env nv f).2) env.now,
                eu.relative_path = kv.2 ∧ eu.sha256 = kv.1 := by
            intro kv hkv hnr
            rcases hkv with h | rfl
            · obtain ⟨hne, e'', he''m, he''p, he''s⟩ := hback kv h
              by_cases hp2 : kv.2 = f.path
              · exact absurd ⟨hback_at kv h hp2, hp2⟩ hnr
              · refine ⟨hne, e'', ?_, he''p, he''s⟩
                exact updateFirst_mem_preserve _ _ _ _ _ e'' he''m
                  (fun hx => hp2 (he''p ▸ hx))
            · obtain ⟨eu, heu, heup, heus⟩ := updateFirst_mem_updated
                s.st.index.files f.path
                (env.hash (normResult env nv f).2)
                (env.sizeOf (normResult env nv f).2) env.now hrelmem
              exact ⟨hhash _, eu, heu, heup, heus⟩
          by_cases he0 : e.sha256 = ""
          · rw [if_neg (fun hx => hx.1 he0)]
            refine ⟨hkeys', ?_, ?_, ?_, ?_⟩
            · intro kv hkv
              refine hfiles_goal kv (hmem_db' kv hkv) ?_
              rintro ⟨h1, h2⟩
              rcases hmem_db' kv hkv with h | hkveq
              · obtain ⟨hne, _, _, _, _⟩ := hback kv h
                exact hne (h1.trans he0)
              · have : kv.1 = env.hash (normResult env nv f).2 := by
                  rw [hkveq]
                exact hspos (by rw [← h1, this])
            · rw [updateFirst_paths]
              exact hnod
            · intro e'' he'' hne
              exact updateFirst_mem_preserve _ _ _ _ _ e'' he'' hne
            · left
              rw [updateFirst_paths]
          · rw [if_pos (show e.sha256 ≠ "" ∧
                e.sha256 ≠ env.hash (normResult env nv f).2 from
                ⟨he0, hspos⟩)]
            refine ⟨((remove_file_record_sublist _ _ _).map _).nodup hkeys',
              ?_, ?_, ?_, ?_⟩
            · intro kv hkv
              have hkv' := List.mem_filter.mp hkv
              have hnr : ¬ (kv.1 = e.sha256 ∧ kv.2 = f.path) :=
                of_decide_eq_true hkv'.2
              exact hfiles_goal kv (hmem_db' kv hkv'.1) hnr
            · rw [updateFirst_paths]
              exact hnod
            · intro e'' he'' hne
              exact updateFirst_mem_preserve _ _ _ _ _ e'' he'' hne
            · left
              rw [updateFirst_paths]
    · rw [if_neg hm]
      have hpathnd : ((s.st.index.files ++
          [(⟨f.path, env.hash (normResult env nv f).2,
            env.sizeOf (normResult env nv f).2, env.now⟩ : FileEntry)]).map
          (·.relative_path)).Nodup := by
        rw [List.map_append]
        refine List.Nodup.append hnod (by simp) ?_
        intro x hx hx2
        simp only [List.map_cons, List.map_nil, List.mem_singleton] at hx2
        exact hnew hm (hx2 ▸ hx)
      have hbacked2 : ∀ db2, db2.Sublist (s.st.manifest ++
          [(env.hash (normResult env nv f).2, f.path)]) →
          manifestBacked db2 (s.st.index.files ++
            [(⟨f.path, env.hash (normResult env nv f).2,
              env.sizeOf (normResult env nv f).2, env.now⟩ : FileEntry)]) := by
        intro db2 hdb2 kv hkv
        rcases hmem_db' kv (hdb2.mem hkv) with h | rfl
        · obtain ⟨hne, e'', he''m, he''p, he''s⟩ := hback kv h
          exact ⟨hne, e'', List.mem_append_left _ he''m, he''p, he''s⟩
        · refine ⟨hhash _, _, List.mem_append_right _
            (List.mem_singleton.mpr rfl), rfl, rfl⟩
      cases hee : assocFind ee f.path with
      | none =>
        refine ⟨hkeys', hbacked2 _ (List.Sublist.refl _), hpathnd, ?_, ?_⟩
        · intro e'' he'' _
          exact List.mem_append_left _ he''
        · right
          rw [List.map_append]
          rfl
      | some e =>
        simp only []
        have hsub2 : (if e.sha256 ≠ "" ∧
            e.sha256 ≠ env.hash (normResult env nv f).2 then
              remove_file_record (s.st.manifest ++
                [(env.hash (normResult env nv f).2, f.path)]) e.sha256 f.path
            else s.st.manifest ++
              [(env.hash (normResult env nv f).2, f.path)]).Sublist
            (s.st.manifest ++
              [(env.hash (normResult env nv f).2, f.path)]) := by
          split
          · exact remove_file_record_sublist _ _ _
          · exact List.Sublist.refl _
        refine ⟨(hsub2.map _).nodup hkeys', hbacked2 _ hsub2, hpathnd,
          ?_, ?_⟩
        · intro e'' he'' _
          exact List.mem_append_left _ he''
        · right
          rw [List.map_append]
          rfl

/-- The scan loop preserves the manifest invariant. -/
theorem scanFold_invariant (env : Env) (nv : Bool)
    (ee : List (PathParts × FileEntry)) (ep : List PathParts)
    (hhash : ∀ c, env.hash c ≠ "")
    (hcov : ∀ p ∈ ep, (assocFind ee p).isSome = true)
    (l : List DiskFile) (s : ScanState)
    (hl : (l.map (·.path)).Nodup)
    (hkeys : (s.st.manifest.map Prod.fst).Nodup)
    (hback : manifestBacked s.st.manifest s.st.index.files)
    (hnod : (s.st.index.files.map (·.relative_path)).Nodup)
    (hcorr : ∀ f ∈ l, ∀ e, assocFind ee f.path = some e →
      ∃ e' ∈ s.st.index.files, e'.relative_path = f.path ∧
        e'.sha256 = e.sha256)
    (hnewp : ∀ f ∈ l, f.path ∉ ep →
      f.path ∉ s.st.index.files.map (·.relative_path)) :
    (((l.foldl (scanStep env nv ee ep) s).st.manifest.map Prod.fst).Nodup) ∧
      manifestBacked (l.foldl (scanStep env nv ee ep) s).st.manifest
        (l.foldl (scanStep env nv ee ep) s).st.index.files ∧
      (((l.foldl (scanStep env nv ee ep) s).st.index.files.map
        (·.relative_path)).Nodup) := by
  induction l generalizing s with
  | nil => exact ⟨hkeys, hback, hnod⟩
  | cons f rest ih =>
    simp only [List.foldl_cons]
    have hl' : (rest.map (·.path)).Nodup := (List.nodup_cons.mp hl).2
    have hfp : f.path ∉ rest.map (·.path) := (List.nodup_cons.mp hl).1
    rw [scanStep_eq]
    by_cases hsup : _is_supported_media f.path
    · rw [if_pos hsup]
      obtain ⟨k1, k2, k3, k4, k5⟩ := scanStepSup_invariant env nv ee ep s f
        hhash hkeys hback hnod
        (hcorr f (List.mem_cons_self _ _))
        (fun hm => hcov f.path hm)
        (hnewp f (List.mem_cons_self _ _))
      refine ih _ hl' k1 k2 k3 ?_ ?_
      · intro g hg e hge
        obtain ⟨e', he'm, he'p, he's⟩ :=
          hcorr g (List.mem_cons_of_mem _ hg) e hge
        have hgne : e'.relative_path ≠ f.path := by
          rw [he'p]
          intro hx
          exact hfp (hx ▸ List.mem_map_of_mem _ hg)
        exact ⟨e', k4 e' he'm hgne, he'p, he's⟩
      · intro g hg hgep
        have h0 := hnewp g (List.mem_cons_of_mem _ hg) hgep
        have hgne : g.path ≠ f.path := fun hx =>
          hfp (hx ▸ List.mem_map_of_mem _ hg)
        rcases k5 with h5 | h5 <;> rw [h5]
        · exact h0
        · intro hx
          rcases List.mem_append.mp hx with hx | hx
          · exact h0 hx
          · exact hgne (by simpa using hx)
    · rw [if_neg hsup]
      refine ih _ hl' hkeys hback hnod ?_ ?_
      · intro g hg e hge
        exact hcorr g (List.mem_cons_of_mem _ hg) e hge
      · intro g hg hgep
        exact hnewp g (List.mem_cons_of_mem _ hg) hgep

theorem scanStepSup_files_origin (env : Env) (nv : Bool)
    (ee : List (PathParts × FileEntry)) (ep : List PathParts)
    (s : ScanState) (f : DiskFile) :
    ∀ e' ∈ (scanStepSup env nv ee ep s f).st.index.files,
      e' ∈ s.st.index.files ∨ e'.relative_path = f.path := by
  intro e' he'
  rw [scanStepSup_files] at he'
  split at he'
  · exact Or.inl he'
  · split at he'
    · cases hee : assocFind ee f.path with
      | none =>
        rw [hee] at he'
        exact Or.inl he'
      | some e =>
        rw [hee] at he'
        simp only [] at he'
        split at he'
        · rcases updateFirst_mem_orig _ _ _ _ _ e' he' with h | h
          · exact Or.inl h
          · exact Or.inr h
        · exact Or.inl he'
    · rcases List.mem_append.mp he' with h | h
      · exact Or.inl h
      · right
        rw [List.mem_singleton.mp h]

/-- Entries the scan leaves behind either came from the starting index or
sit at a supported scanned path. -/
theorem scanFold_files_origin (env : Env) (nv : Bool)
    (ee : List (PathParts × FileEntry)) (ep : List PathParts)
    (l : List DiskFile) (s : ScanState) :
    ∀ e' ∈ (l.foldl (scanStep env nv ee ep) s).st.index.files,
      e' ∈ s.st.index.files ∨ e'.relative_path ∈
        ((l.filter (fun f => _is_supported_media f.path)).map (·.path)) := by
  induction l generalizing s with
  | nil =>
    intro e' he'
    exact Or.inl he'
  | cons f rest ih =>
    intro e' he'
    simp only [List.foldl_cons] at he'
    rw [List.filter_cons]
    by_cases hsup : _is_supported_media f.path
    · rcases ih _ e' he' with h | h
      · rw [scanStep_eq, if_pos hsup] at h
        rcases scanStepSup_files_origin env nv ee ep s f e' h with h2 | h2
        · exact Or.inl h2
        · right
          rw [if_pos (by simpa using hsup), List.map_cons, h2]
          exact List.mem_cons_self _ _
      · right
        rw [if_pos (by simpa using hsup), List.map_cons]
        exact List.mem_cons_of_mem _ h
    · rcases ih _ e' he' with h | h
      · rw [scanStep_eq, if_neg hsup] at h
        exact Or.inl h
      · right
        rw [if_neg (by simpa using hsup)]
        exact h

theorem sweepEntryStep_fst (snap : String → Option PathParts)
    (m : PathParts) (acc : Manifest × SidecarStore × List (String × Nat))
    (e : FileEntry) :
    (sweepEntryStep snap m acc e).1 =
      if e.sha256 ≠ "" ∧ snap e.sha256 = some m then
        remove_file_record acc.1 e.sha256 m
      else acc.1 := by
  simp only [sweepEntryStep]
  split <;> rfl

theorem sweepEntryStep_fst_sublist (snap : String → Option PathParts)
    (m : PathParts) (acc : Manifest × SidecarStore × List (String × Nat))
    (e : FileEntry) : (sweepEntryStep snap m acc e).1.Sublist acc.1 := by
  rw [sweepEntryStep_fst]
  split
  · exact remove_file_record_sublist _ _ _
  · exact List.Sublist.refl _

theorem sweepInner_sublist (snap : String → Option PathParts)
    (m : PathParts) :
    ∀ (l : List FileEntry) (acc : Manifest × SidecarStore ×
      List (String × Nat)),
      ((l.foldl (sweepEntryStep snap m) acc).1).Sublist acc.1 := by
  intro l
  induction l with
  | nil => exact fun acc => List.Sublist.refl _
  | cons e rest ih =>
    intro acc
    simp only [List.foldl_cons]
    exact (ih _).trans (sweepEntryStep_fst_sublist snap m acc e)

theorem sweepInner_not_mem (snap : String → Option PathParts)
    (m : PathParts) (kv : String × PathParts)
    (hsnap : snap kv.1 = some m) (hkv2 : kv.2 = m) (hne : kv.1 ≠ "") :
    ∀ (l : List FileEntry) (acc : Manifest × SidecarStore ×
      List (String × Nat)),
      ((∃ e₀ ∈ l, e₀.sha256 = kv.1) ∨ kv ∉ acc.1) →
      kv ∉ (l.foldl (sweepEntryStep snap m) acc).1 := by
  intro l
  induction l with
  | nil =>
    intro acc h
    refine h.resolve_left ?_
    rintro ⟨e₀, he₀, _⟩
    cases he₀
  | cons e rest ih =>
    intro acc h
    simp only [List.foldl_cons]
    apply ih
    rcases h with ⟨e₀, he₀, hsha⟩ | hnm
    · rcases List.mem_cons.mp he₀ with rfl | he₀'
      · right
        rw [sweepEntryStep_fst]
        rw [if_pos (show e₀.sha256 ≠ "" ∧ snap e₀.sha256 = some m from
          ⟨hsha ▸ hne, by rw [hsha, hsnap]⟩)]
        intro hx
        exact of_decide_eq_true (List.mem_filter.mp hx).2 ⟨hsha.symm, hkv2⟩
      · exact Or.inl ⟨e₀, he₀', hsha⟩
    · right
      intro hx
      exact hnm ((sweepEntryStep_fst_sublist snap m acc e).mem hx)

theorem missingStep_fst_sublist (snap : String → Option PathParts)
    (files : List FileEntry)
    (acc : Manifest × SidecarStore × List (String × Nat)) (m : PathParts) :
    ((missingStep snap files acc m).1).Sublist acc.1 := by
  rw [missingStep]
  exact sweepInner_sublist snap m _ acc

theorem missingStep_not_mem (snap : String → Option PathParts)
    (files : List FileEntry)
    (acc : Manifest × SidecarStore × List (String × Nat)) (m : PathParts)
    (kv : String × PathParts)
    (he₀ : ∃ e₀ ∈ files, e₀.relative_path = m ∧ e₀.sha256 = kv.1)
    (hsnap : snap kv.1 = some m) (hkv2 : kv.2 = m) (hne : kv.1 ≠ "") :
    kv ∉ (missingStep snap files acc m).1 := by
  rw [missingStep]
  apply sweepInner_not_mem snap m kv hsnap hkv2 hne
  obtain ⟨e₀, he₀m, he₀p, he₀s⟩ := he₀
  exact Or.inl ⟨e₀, List.mem_filter.mpr ⟨he₀m, by simp [he₀p]⟩, he₀s⟩

theorem sweepFold_sublist (snap : String → Option PathParts)
    (files : List FileEntry) :
    ∀ (ms : List PathParts) (acc : Manifest × SidecarStore ×
      List (String × Nat)),
      ((ms.foldl (missingStep snap files) acc).1).Sublist acc.1 := by
  intro ms
  induction ms with
  | nil => exact fun acc => List.Sublist.refl _
  | cons m rest ih =>
    intro acc
    simp only [List.foldl_cons]
    exact (ih _).trans (missingStep_fst_sublist snap files acc m)

/-- A record whose recorded path is swept, with a live initial entry at
that path carrying its hash, does not survive the disappearance sweep. -/
theorem sweepFold_excludes (snap : String → Option PathParts)
    (files : List FileEntry) (ms : List PathParts)
    (acc : Manifest × SidecarStore × List (String × Nat))
    (kv : String × PathParts) (m : PathParts) (hm : m ∈ ms)
    (he₀ : ∃ e₀ ∈ files, e₀.relative_path = m ∧ e₀.sha256 = kv.1)
    (hsnap : snap kv.1 = some m) (hkv2 : kv.2 = m) (hne : kv.1 ≠ "") :
    kv ∉ (ms.foldl (missingStep snap files) acc).1 := by
  obtain ⟨s1, t1, rfl⟩ := List.append_of_mem hm
  rw [List.foldl_append, List.foldl_cons]
  intro hx
  exact missingStep_not_mem snap files _ m kv he₀ hsnap hkv2 hne
    ((sweepFold_sublist snap files t1 _).mem hx)



/-- C3 (amended): under wellformed inputs — a hash oracle that never
returns the empty string, duplicate-free index paths, disk paths and
manifest keys, and a manifest in which every record is backed by a live
entry — a reindex pass preserves both halves of the dedup invariant: the
manifest still holds at most one record per hash, and every surviving
record points at the relative_path of a live index entry whose hash is the
record's key. -/
theorem reindex_manifest_invariant (env : Env) (st : PState) (nv : Bool)
    (hhash : ∀ c, env.hash c ≠ "")
    (hidx : (st.index.files.map (·.relative_path)).Nodup)
    (hdisk : (st.disk.map (·.path)).Nodup)
    (hkeys : (st.manifest.map Prod.fst).Nodup)
    (hback : manifestBacked st.manifest st.index.files) :
    (((reindex_project env st nv).1.manifest.map Prod.fst).Nodup) ∧
      manifestBacked (reindex_project env st nv).1.manifest
        (reindex_project env st nv).1.index.files := by
  have hcov : ∀ p ∈ st.index.files.map (·.relative_path),
      (assocFind (lastEntryMap st.index.files) p).isSome = true :=
    fun p hp => lastEntryMap_isSome st.index.files p hp
  have hcorr : ∀ (f : DiskFile), ∀ e,
      assocFind (lastEntryMap st.index.files) f.path = some e →
      ∃ e' ∈ st.index.files, e'.relative_path = f.path ∧
        e'.sha256 = e.sha256 := by
    intro f e h
    obtain ⟨hm, hp⟩ := lastEntryMap_find_mem st.index.files f.path e h
    exact ⟨e, hm, hp, rfl⟩
  have hl : ((((_relocate_misplaced_media st.disk).1.filter
      (fun f => _is_within_ingest f.path)).map (·.path))).Nodup :=
    ((List.filter_sublist _).map _).nodup (relocate_nodup st.disk hdisk)
  have hscan := scanFold_invariant env nv (lastEntryMap st.index.files)
    (st.index.files.map (·.relative_path)) hhash hcov
    ((_relocate_misplaced_media st.disk).1.filter
      (fun f => _is_within_ingest f.path))
    { st := { st with disk := (_relocate_misplaced_media st.disk).1 }
      refc := initRefCounts (lastEntryMap st.index.files)
      seen := [], new_count := 0, skipped_unsupported := 0
      normalized := 0, normalization_failed := 0 }
    hl hkeys hback hidx
    (fun f _ e he => hcorr f e he)
    (fun f _ hfe => hfe)
  simp only [reindex_project]
  set S := List.foldl (scanStep env nv (lastEntryMap st.index.files)
      (st.index.files.map (·.relative_path)))
    { st := { st with disk := (_relocate_misplaced_media st.disk).1 }
      refc := initRefCounts (lastEntryMap st.index.files)
      seen := [], new_count := 0, skipped_unsupported := 0
      normalized := 0, normalization_failed := 0 }
    ((_relocate_misplaced_media st.disk).1.filter
      (fun f => _is_within_ingest f.path)) with hS
  set ms := missingPaths (st.index.files.map (·.relative_path)) S.seen
    with hms
  split
  · refine ⟨?_, ?_⟩
    · show ((ms.foldl (missingStep
          (fun h => get_recorded_paths S.st.manifest h) st.index.files)
          (S.st.manifest, S.st.sidecars, S.refc)).1.map Prod.fst).Nodup
      exact ((sweepFold_sublist _ _ ms _).map _).nodup hscan.1
    · show manifestBacked
        (ms.foldl (missingStep
          (fun h => get_recorded_paths S.st.manifest h) st.index.files)
          (S.st.manifest, S.st.sidecars, S.refc)).1
        (remove_entries S.st.index ms).files
      intro kv hkv
      have hkv0 : kv ∈ S.st.manifest :=
        (sweepFold_sublist _ _ ms _).mem hkv
      obtain ⟨hne, e', he'm, he'p, he's⟩ := hscan.2.1 kv hkv0
      by_cases hm2 : kv.2 ∈ ms
      · exfalso
        have hseen : S.seen = (((_relocate_misplaced_media st.disk).1.filter
            (fun f => _is_within_ingest f.path)).filter
              (fun f => _is_supported_media f.path)).map (·.path) := by
          rw [hS, scanFold_seen]
          simp
        have hnotseen : kv.2 ∉
            (((_relocate_misplaced_media st.disk).1.filter
              (fun f => _is_within_ingest f.path)).filter
                (fun f => _is_supported_media f.path)).map (·.path) := by
          rw [hms, missingPaths] at hm2
          have h2 := of_decide_eq_true (List.mem_filter.mp hm2).2
          rcases h2 with hns | ⟨_, hbad⟩
          · rw [hseen] at hns
            exact hns
          · intro hx
            obtain ⟨g, hg, hgp⟩ := List.mem_map.mp hx
            have hgs := (List.mem_filter.mp hg).2
            rw [hgp] at hgs
            rw [hgs] at hbad
            cases hbad
        have he'init : e' ∈ st.index.files := by
          rw [hS] at he'm
          rcases scanFold_files_origin env nv _ _ _ _ e' he'm with h | h
          · exact h
          · rw [he'p] at h
            exact absurd h hnotseen
        have hsnap : (fun h => get_recorded_paths S.st.manifest h) kv.1 =
            some kv.2 := by
          simp only [get_recorded_paths]
          exact assocFind_mem_nodup _ kv hscan.1 hkv0
        exact sweepFold_excludes _ st.index.files ms
          (S.st.manifest, S.st.sidecars, S.refc) kv kv.2 hm2
          ⟨e', he'init, he'p, he's⟩ hsnap rfl hne hkv
      · refine ⟨hne, e', ?_, he'p, he's⟩
        rw [remove_entries_files]
        refine List.mem_filter.mpr ⟨he'm, ?_⟩
        simp [he'p, hm2]
  · exact ⟨hscan.1, hscan.2.1⟩

/-- C3 counterexample: `record_file_hash` is reachable on its own (it is
one of the three operations the claim closes over) and writes a manifest
record without touching the catalog index, so the freshly reached state
holds a record for a hash that no live FileEntry carries. -/
theorem record_file_hash_breaks_backing :
    (record_file_hash [] "h" ["ingest", "originals", "x.mov"]).2 =
      [("h", ["ingest", "originals", "x.mov"])] ∧
      ¬ manifestBacked
        (record_file_hash [] "h" ["ingest", "originals", "x.mov"]).2 [] := by
  decide

/-- A small wellformed project for exercising the manifest invariant. -/
def c3State : PState :=
  { disk := [⟨["ingest", "originals", "a.mov"], 1⟩, ⟨["stray2.mp4"], 3⟩]
    index := ⟨[⟨["ingest", "originals", "a.mov"], String.mk [digCh 1], 101,
      "T"⟩], ⟨1, 0, 0⟩⟩
    manifest := [(String.mk [digCh 1], ["ingest", "originals", "a.mov"])]
    sidecars := [] }

/-- Witness for the amended C3 theorem at one concrete pass. -/
theorem reindex_manifest_invariant_witness :
    (((reindex_project sampleEnv c3State true).1.manifest.map
      Prod.fst).Nodup) ∧
      manifestBacked (reindex_project sampleEnv c3State true).1.manifest
        (reindex_project sampleEnv c3State true).1.index.files :=
  reindex_manifest_invariant sampleEnv c3State true
    (fun c h => by
      simp only [sampleEnv] at h
      exact absurd (congrArg String.data h) (by simp))
    (by decide) (by decide) (by decide) (by decide)


end Reindex

end Storage
